import Mathlib

/-!
Verification of the graph module of the `aoc_helper` repository.

The Rust source is shallowly embedded:
* `VecGraph` mirrors `src/graph/vec_graph.rs` (arena nodes/edges, intrusive
  singly linked outgoing-edge lists);
* `RcGraph` mirrors `src/graph/rc_graph.rs` (each node holds copies of its
  neighbor nodes, value semantics standing in for `Rc<RefCell<_>>` cells,
  which is observation-equivalent for the operations verified here since
  none of them mutates through a stored neighbor cell);
* the two Dijkstra entry points of `src/graph/mod.rs` are embedded as a
  common fueled loop (`loopGo`) whose only variation points are exactly the
  points where the two Rust functions differ (initial frontier and the
  target test), plus the two path-reconstruction functions.

Rust `HashMap` is modelled as an association list with unique keys
(`alookup` / `aset`); the `DoublePriorityQueue` is modelled as a keyed
association list whose `pop_min` removes the first entry of minimal
priority (the crate leaves tie order unspecified, the model fixes one
refinement of it).  A Rust panic is modelled as `none` (or `LoopRes.fail`),
and the `while` loops are run with enough fuel, computed from the input,
that fuel exhaustion is unreachable (proved below); `usize` arithmetic is
modelled by `Nat`.
-/

namespace AocGraph

/-! ## Association list with Nat keys (model of `HashMap<NodeIndex, _>`) -/

/-- Lookup in an association list; model of `HashMap::get` / the `Index` op. -/
def alookup : List (Nat × Nat) → Nat → Option Nat
  | [], _ => none
  | (k, v) :: rest, key => if k = key then some v else alookup rest key

/-- Key membership, model of `HashMap::contains_key`. -/
def acontains (m : List (Nat × Nat)) (key : Nat) : Bool :=
  (alookup m key).isSome

/-- Insertion, model of `HashMap::insert`: overwrite an existing key in
place, otherwise append a fresh entry. -/
def aset : List (Nat × Nat) → Nat → Nat → List (Nat × Nat)
  | [], key, val => [(key, val)]
  | (k, v) :: rest, key, val =>
    if k = key then (key, val) :: rest else (k, v) :: aset rest key val

/-- Unique keys: every well formed map/queue state has this. -/
def NoDupKeys (m : List (Nat × Nat)) : Prop :=
  (m.map Prod.fst).Nodup

/-! ## The arena graph (`vec_graph.rs`) -/

/-- Model of `EdgeData`: target node index and the next edge in the
source node's intrusive list. -/
structure EdgeData where
  target : Nat
  next_outgoing_edge : Option Nat
  deriving Repr, DecidableEq

/-- Model of `NodeData<T>`. -/
structure NodeData (D : Type) where
  data : D
  index : Nat
  first_outgoing_edge : Option Nat
  deriving Repr, DecidableEq

/-- Model of `VecGraph<T>`: one arena of nodes, one arena of edges. -/
structure VecGraph (D : Type) where
  nodes : List (NodeData D)
  edges : List EdgeData
  deriving Repr, DecidableEq

/-- Model of `VecGraph::new`. -/
def VecGraph.new (D : Type) : VecGraph D := ⟨[], []⟩

/-- Model of `VecGraph::add_node`: append, handle is the pre-insertion
node count. -/
def VecGraph.add_node (g : VecGraph D) (data : D) : VecGraph D × Nat :=
  let index := g.nodes.length
  (⟨g.nodes ++ [⟨data, index, none⟩], g.edges⟩, index)

/-- Model of `VecGraph::add_edge`.  `none` models a panic.  The bounds
check on `target` is the source's literal `self.nodes.len() < target.0`
(note: this admits `target = len`, the dangling-edge off-by-one examined
in claim C2). -/
def VecGraph.add_edge (g : VecGraph D) (source target : Nat) :
    Option (VecGraph D) :=
  let edge_index := g.edges.length
  if g.nodes.length < target then
    none
  else
    match g.nodes[source]? with
    | none => none
    | some source_node =>
      some ⟨g.nodes.set source
              { source_node with first_outgoing_edge := some edge_index },
            g.edges ++ [⟨target, source_node.first_outgoing_edge⟩]⟩

/-- Model of `VecGraph::get_data` (`None` when out of range). -/
def VecGraph.get_data (g : VecGraph D) (node : Nat) : Option D :=
  g.nodes[node]?.map (·.data)

/-- Model of `VecGraph::find_nodes`: all matching nodes, via their stored
`index` field, in arena order. -/
def VecGraph.find_nodes (g : VecGraph D) (predicate : D → Bool) : List Nat :=
  (g.nodes.filter (fun nd => predicate nd.data)).map (·.index)

/-- Walk of the intrusive outgoing-edge list (the `Successors` iterator):
collect edge targets following `next_outgoing_edge`.  A missing edge index
is the iterator's panic, modelled as `none`; the fuel (always instantiated
to more than the arena size) models the finiteness of the chain and only
runs out on chains no API-built graph has. -/
def chase (edges : List EdgeData) : Option Nat → Nat → Option (List Nat)
  | none, _ => some []
  | some _, 0 => none
  | some e, fuel + 1 =>
    match edges[e]? with
    | none => none
    | some ed => (chase edges ed.next_outgoing_edge fuel).map (ed.target :: ·)

/-- Model of `VecGraph::get_neighbors` (via `successors`): panics (`none`)
when the node handle is invalid, otherwise the targets of the node's
outgoing edges, most recently added first. -/
def VecGraph.get_neighbors (g : VecGraph D) (node : Nat) : Option (List Nat) :=
  match g.nodes[node]? with
  | none => none
  | some nd => chase g.edges nd.first_outgoing_edge (g.edges.length + 1)

/-! ### Structural well-formedness

The spec's data-model invariant (§3): stored edges refer to existing
targets; additionally the intrusive lists are structurally sound, which
holds for every graph built through the API. -/

/-- Intrusive-list soundness: each node's `first_outgoing_edge` is in
range, each edge's `next_outgoing_edge` strictly descends, and each node
records its own position in `index`. -/
def edgesOkB (g : VecGraph D) : Bool :=
  ((List.range g.nodes.length).all fun i =>
    match g.nodes[i]? with
    | none => true
    | some nd =>
      (match nd.first_outgoing_edge with
       | none => true
       | some e => decide (e < g.edges.length)) && decide (nd.index = i)) &&
  ((List.range g.edges.length).all fun j =>
    match g.edges[j]? with
    | none => true
    | some ed =>
      match ed.next_outgoing_edge with
      | none => true
      | some k => decide (k < j))

/-- No dangling edges: every stored edge target is a live node. -/
def noDanglingB (g : VecGraph D) : Bool :=
  (List.range g.edges.length).all fun j =>
    match g.edges[j]? with
    | none => true
    | some ed => decide (ed.target < g.nodes.length)

/-- The spec's graph invariant, as a decidable proposition. -/
def WellFormed (g : VecGraph D) : Prop :=
  edgesOkB g = true ∧ noDanglingB g = true

instance (g : VecGraph D) : Decidable (WellFormed g) := by
  unfold WellFormed; infer_instance

/-! ## The priority queue (`DoublePriorityQueue`)

A keyed min-priority queue: `push` updates the priority of a present key,
`pop_min` removes an entry of minimal priority.  The crate does not
specify tie order among equal priorities; the model resolves ties to the
first (oldest) entry, one legal refinement. -/

/-- Model of `DoublePriorityQueue::push`. -/
def qpush (q : List (Nat × Nat)) (key prio : Nat) : List (Nat × Nat) :=
  if acontains q key then aset q key prio else q ++ [(key, prio)]

/-- Model of `DoublePriorityQueue::pop_min`: first entry of minimal
priority, together with the remaining queue. -/
def popMin : List (Nat × Nat) → Option ((Nat × Nat) × List (Nat × Nat))
  | [] => none
  | (k, p) :: rest =>
    match popMin rest with
    | none => some ((k, p), [])
    | some ((k', p'), rest') =>
      if p ≤ p' then some ((k, p), rest) else some ((k', p'), (k, p) :: rest')

/-! ## The Dijkstra search loop (`Graph::dijkstra`,
`Graph::dijkstra_search_with_closure`)

Both Rust functions run the identical relaxation loop; they differ only in
how the frontier is seeded and in the test applied to a popped node.  The
loop is embedded once, parameterized over the popped-node test
`checkTarget : Nat -> Option Bool` (where `none` is a panic inside the
test, as in the closure variant's `get_data(..).unwrap()`). -/

/-- The per-search mutable state: the priority frontier, the predecessor
map `came_from` and the best-cost map `cost_so_far`. -/
structure DState where
  frontier : List (Nat × Nat)
  cameFrom : List (Nat × Nat)
  costSoFar : List (Nat × Nat)
  deriving Repr, DecidableEq

/-- Outcome of the search loop: a Rust panic, fuel exhaustion (proved
unreachable for the fuel used by the entry points), or normal exit with
the final predecessor map and the popped node that satisfied the target
test, if any. -/
inductive LoopRes where
  | fail : LoopRes
  | timeout : LoopRes
  | done : List (Nat × Nat) → Option Nat → LoopRes
  deriving Repr, DecidableEq

/-- One relaxation (the body of `for next in self.get_neighbors(&current)`):
look up the neighbor's payload and the current node's best cost (both
`unwrap`s / panicking indexing in Rust), and update the three maps when a
strictly smaller cost is found. -/
def relaxOne (g : VecGraph D) (f : D → Nat) (current : Nat) (st : DState)
    (next : Nat) : Option DState :=
  match g.get_data next, alookup st.costSoFar current with
  | some data, some curCost =>
    match alookup st.costSoFar next with
    | none =>
      some ⟨qpush st.frontier next (f data + curCost),
            aset st.cameFrom next current,
            aset st.costSoFar next (f data + curCost)⟩
    | some oldCost =>
      if f data + curCost < oldCost then
        some ⟨qpush st.frontier next (f data + curCost),
              aset st.cameFrom next current,
              aset st.costSoFar next (f data + curCost)⟩
      else
        some st
  | _, _ => none

/-- Relax every neighbor of `current` in order. -/
def relaxAll (g : VecGraph D) (f : D → Nat) (current : Nat) :
    List Nat → DState → Option DState
  | [], st => some st
  | next :: rest, st =>
    match relaxOne g f current st next with
    | none => none
    | some st' => relaxAll g f current rest st'

/-- The `while !frontier.is_empty()` loop shared by both Rust entry
points. -/
def loopGo (g : VecGraph D) (f : D → Nat) (checkTarget : Nat → Option Bool) :
    Nat → DState → LoopRes
  | 0, _ => .timeout
  | fuel + 1, st =>
    match popMin st.frontier with
    | none => .done st.cameFrom none
    | some ((current, _), rest) =>
      match checkTarget current with
      | none => .fail
      | some true => .done st.cameFrom (some current)
      | some false =>
        match g.get_neighbors current with
        | none => .fail
        | some neighbors =>
          match relaxAll g f current neighbors { st with frontier := rest } with
          | none => .fail
          | some st' => loopGo g f checkTarget fuel st'

/-- Model of `reconstruct_path`'s backward walk: push nodes until `start`
is reached, then prepend `start`; a missing predecessor is the Rust
indexing panic.  The fuel models the loop's termination and is
instantiated (sufficiently, as proved below) from the map size. -/
def reconGo (cameFrom : List (Nat × Nat)) (start : Nat) :
    Nat → Nat → List Nat → Option (List Nat)
  | 0, _, _ => none
  | fuel + 1, current, acc =>
    if current = start then some (start :: acc)
    else
      match alookup cameFrom current with
      | none => none
      | some prev => reconGo cameFrom start fuel prev (current :: acc)

/-- Model of `reconstruct_path` (single-pair variant). -/
def reconstruct_path (cameFrom : List (Nat × Nat)) (start target : Nat) :
    Option (List Nat) :=
  if acontains cameFrom target then
    reconGo cameFrom start (cameFrom.length + 2) target []
  else
    some []

/-- Backward walk of `reconstruct_path_closure`: stop at any node of
`start_nodes`, and finish by pushing that node's own predecessor entry
(which is itself, for a seeded start node). -/
def reconGoClosure (cameFrom : List (Nat × Nat)) (startNodes : List Nat) :
    Nat → Nat → List Nat → Option (List Nat)
  | 0, _, _ => none
  | fuel + 1, current, acc =>
    if startNodes.contains current then
      (alookup cameFrom current).map (· :: acc)
    else
      match alookup cameFrom current with
      | none => none
      | some prev => reconGoClosure cameFrom startNodes fuel prev (current :: acc)

/-- Model of `reconstruct_path_closure`. -/
def reconstruct_path_closure (cameFrom : List (Nat × Nat))
    (startNodes : List Nat) (target : Option Nat) : Option (List Nat) :=
  match target with
  | none => some []
  | some t => reconGoClosure cameFrom startNodes (cameFrom.length + 2) t []

/-- Largest node cost in the arena (used only to size the loop fuel). -/
def maxCost (g : VecGraph D) (f : D → Nat) : Nat :=
  g.nodes.foldr (fun nd acc => max (f nd.data) acc) 0

/-- Fuel for the search loop: strictly more than the loop's iteration
count, which is bounded through the potential function `mval` below. -/
def fuelFor (g : VecGraph D) (f : D → Nat) (seeds : List Nat) : Nat :=
  seeds.length +
    ((g.nodes.length + seeds.length) * maxCost g f + 2) * g.nodes.length + 1

/-- Model of the trait-default `Graph::dijkstra` as instantiated by
`VecGraph`: seed the three maps with `start`, run the loop breaking when
`start == target` is popped, reconstruct. -/
def dijkstra (g : VecGraph D) (start target : Nat) (f : D → Nat) :
    Option (List Nat) :=
  let st : DState := ⟨[(start, 0)], [(start, start)], [(start, 0)]⟩
  match loopGo g f (fun c => some (c = target : Bool)) (fuelFor g f [start]) st with
  | .done cameFrom _ => reconstruct_path cameFrom start target
  | _ => none

/-- Model of the trait-default `Graph::dijkstra_search_with_closure` as
instantiated by `VecGraph`: seed all `find_nodes frontier_fn` nodes at
cost 0 with self-predecessors, run the loop breaking at the first popped
node whose payload satisfies `target_fn`, reconstruct. -/
def dijkstra_search_with_closure (g : VecGraph D)
    (frontier_fn target_fn : D → Bool) (f : D → Nat) : Option (List Nat) :=
  let seeds := g.find_nodes frontier_fn
  let st : DState := ⟨seeds.map (fun i => (i, 0)),
                      seeds.map (fun i => (i, i)),
                      seeds.map (fun i => (i, 0))⟩
  match loopGo g f (fun c => (g.get_data c).map target_fn)
      (fuelFor g f seeds) st with
  | .done cameFrom found => reconstruct_path_closure cameFrom seeds found
  | _ => none

/-! ## Graph-building operation sequences

Used to state ordering claims over every graph reachable through the
public API (`add_node` / `add_edge`). -/

/-- One public mutating operation. -/
inductive Op (D : Type) where
  | addNode : D → Op D
  | addEdge : Nat → Nat → Op D
  deriving Repr, DecidableEq

/-- Run a sequence of operations; `none` when some `add_edge` panicked. -/
def applyOps : VecGraph D → List (Op D) → Option (VecGraph D)
  | g, [] => some g
  | g, .addNode d :: rest => applyOps (g.add_node d).1 rest
  | g, .addEdge s t :: rest =>
    match g.add_edge s t with
    | none => none
    | some g' => applyOps g' rest

/-- The targets of the edges a sequence of operations adds out of `h`, in
insertion order. -/
def edgeTargetsFrom (ops : List (Op D)) (h : Nat) : List Nat :=
  ops.filterMap fun op =>
    match op with
    | .addNode _ => none
    | .addEdge s t => if s = h then some t else none

/-! ## Walks

A walk follows edges of the graph (`EdgeRel`, derived from the same
neighbor enumeration the search uses); its cumulative cost sums the cost
of every node after the first, matching the search's cost convention. -/

/-- Edge relation of the arena graph. -/
def EdgeRel (g : VecGraph D) (u v : Nat) : Prop :=
  ∃ l, g.get_neighbors u = some l ∧ v ∈ l

/-- Walks: nonempty node sequences following `EdgeRel`. -/
inductive IsWalk (g : VecGraph D) : List Nat → Prop
  | single (x : Nat) : IsWalk g [x]
  | cons (x y : Nat) (rest : List Nat) :
      EdgeRel g x y → IsWalk g (y :: rest) → IsWalk g (x :: y :: rest)

/-- Cost of the node entered at `i`, as the search computes it. -/
def costAt (g : VecGraph D) (f : D → Nat) (i : Nat) : Nat :=
  match g.get_data i with
  | some d => f d
  | none => 0

/-- Cumulative cost of a walk: sum of `costAt` over all nodes after the
first. -/
def walkCost (g : VecGraph D) (f : D → Nat) (w : List Nat) : Nat :=
  ((w.drop 1).map (costAt g f)).sum

/-- A walk from one of `seeds` to `t`. -/
def SeedWalk (g : VecGraph D) (seeds : List Nat) (w : List Nat) (t : Nat) :
    Prop :=
  IsWalk g w ∧ (∃ h, w.head? = some h ∧ h ∈ seeds) ∧ w.getLast? = some t

/-! ## The shared-ownership graph (`rc_graph.rs`)

`Node<T>` owns copies of its neighbor nodes.  In Rust the copies are held
in `Rc<RefCell<_>>` cells; since none of the verified operations mutates
through such a cell, plain value semantics is observation-equivalent
here. -/

/-- Model of `rc_graph::Node<T>`. -/
inductive RcNode (D : Type) where
  | mk : D → Nat → List (RcNode D) → RcNode D

/-- Payload of a node. -/
def RcNode.data : RcNode D → D
  | .mk d _ _ => d

/-- Stored index of a node. -/
def RcNode.index : RcNode D → Nat
  | .mk _ i _ => i

/-- Stored neighbor copies of a node. -/
def RcNode.neighbors : RcNode D → List (RcNode D)
  | .mk _ _ ns => ns

/-- Model of `RcGraph<T>`. -/
structure RcGraph (D : Type) where
  nodes : List (RcNode D)

/-- Model of `RcGraph::new`. -/
def RcGraph.new (D : Type) : RcGraph D := ⟨[]⟩

/-- Model of `RcGraph::add_node`. -/
def RcGraph.add_node (g : RcGraph D) (data : D) : RcGraph D × Nat :=
  let index := g.nodes.length
  (⟨g.nodes ++ [.mk data index []]⟩, index)

/-- Model of `RcGraph::add_edge`: clone the target node as it is right
now and append the clone to the source's neighbor list; `none` models the
panicking `Vec` indexing on either invalid handle. -/
def RcGraph.add_edge (g : RcGraph D) (source target : Nat) :
    Option (RcGraph D) :=
  match g.nodes[target]?, g.nodes[source]? with
  | some t, some s =>
    some ⟨g.nodes.set source (.mk s.data s.index (s.neighbors ++ [t]))⟩
  | _, _ => none

/-- Model of `RcGraph::get_data`. -/
def RcGraph.get_data (g : RcGraph D) (node : Nat) : Option D :=
  g.nodes[node]?.map (·.data)

/-- Mutation through `RcGraph::get_data_mut`: replace the payload stored
in the node arena (neighbor copies elsewhere are separate values and are
not touched).  `none` models the `None` case, where the caller has
nothing to mutate. -/
def RcGraph.set_data (g : RcGraph D) (node : Nat) (d : D) :
    Option (RcGraph D) :=
  match g.nodes[node]? with
  | none => none
  | some nd => some ⟨g.nodes.set node (.mk d nd.index nd.neighbors)⟩

/-- Model of `RcGraph::get_neighbors`: indices stored in the neighbor
copies, in list (= insertion) order; `none` models the panicking indexing
on an invalid handle. -/
def RcGraph.get_neighbors (g : RcGraph D) (node : Nat) : Option (List Nat) :=
  g.nodes[node]?.map (fun nd => nd.neighbors.map (·.index))

/-- Run a sequence of operations against the shared-ownership graph. -/
def applyRcOps : RcGraph D → List (Op D) → Option (RcGraph D)
  | g, [] => some g
  | g, .addNode d :: rest => applyRcOps (g.add_node d).1 rest
  | g, .addEdge s t :: rest =>
    match g.add_edge s t with
    | none => none
    | some g' => applyRcOps g' rest

/-- Every valid handle has a successful neighbor enumeration. -/
def GoodG (g : VecGraph D) : Prop :=
  ∀ h, h < g.nodes.length → ∃ l, g.get_neighbors h = some l

/-- Every stored node records its own arena position. -/
def RcOk (g : RcGraph D) : Prop :=
  ∀ i nd, g.nodes[i]? = some nd → RcNode.index nd = i

/-! ## Concrete graphs used in closed statements -/

/-- A single-node arena graph (payload 7, handle 0). -/
def oneNodeGraph : VecGraph Nat := ((VecGraph.new Nat).add_node 7).1

/-- Build ops for the C4 witness: three nodes, edges 0 to 1, 0 to 2,
0 to 2 again (a duplicate), in that order. -/
def c4Ops : List (Op Nat) :=
  [.addNode 10, .addNode 11, .addNode 12,
   .addEdge 0 1, .addEdge 0 2, .addEdge 0 2]

/-- The arena graph the C4 witness ops build. -/
def c4G : VecGraph Nat :=
  ⟨[⟨10, 0, some 2⟩, ⟨11, 1, none⟩, ⟨12, 2, none⟩],
   [⟨1, none⟩, ⟨2, some 0⟩, ⟨2, some 1⟩]⟩

/-- The shared-ownership graph the same ops build. -/
def c10G : RcGraph Nat :=
  ⟨[.mk 10 0 [.mk 11 1 [], .mk 12 2 [], .mk 12 2 []],
    .mk 11 1 [], .mk 12 2 []]⟩

/-- A two-node shared-ownership graph (payloads 5 and 6). -/
def rcBase : RcGraph Nat :=
  ⟨[.mk 5 0 [], .mk 6 1 []]⟩

/-! ## Pop order index -/

/-- Position of the first occurrence of `k` in `P` (list length when
absent); used to order predecessor chains by pop time. -/
def pIdx : List Nat → Nat → Nat
  | [], _ => 0
  | x :: rest, k => if x = k then 0 else pIdx rest k + 1

/-! ## The loop potential -/

/-- Sum of the stored best costs. -/
def costSum (m : List (Nat × Nat)) : Nat := (m.map Prod.snd).sum

/-- Number of valid handles not yet discovered. -/
def missingCount (n : Nat) (m : List (Nat × Nat)) : Nat :=
  (List.range n).countP (fun i => !acontains m i)

/-- Weight of one undiscovered node in the potential: strictly more than
any best cost the search can ever record, plus one. -/
def wFor (g : VecGraph D) (f : D → Nat) (seeds : List Nat) : Nat :=
  (g.nodes.length + seeds.length) * maxCost g f + 2

/-- Potential of a search state: strictly decreases at every loop
iteration, so it bounds the remaining iteration count. -/
def mval (g : VecGraph D) (f : D → Nat) (seeds : List Nat) (st : DState) :
    Nat :=
  st.frontier.length + costSum st.costSoFar +
    wFor g f seeds * missingCount g.nodes.length st.costSoFar

/-! ## The search loop invariant -/

/-- Relaxation bounds for the settled node `u` recorded over the neighbor
handles `zs`. -/
def Relaxed (g : VecGraph D) (f : D → Nat) (csf : List (Nat × Nat))
    (u : Nat) (zs : List Nat) : Prop :=
  ∀ z ∈ zs, ∃ zc uc, alookup csf z = some zc ∧ alookup csf u = some uc ∧
    zc ≤ uc + costAt g f z

/-- Core invariant of the search loop, over the state `st` and the ghost
list `P` of the nodes popped so far, in pop order. -/
structure InvCore (g : VecGraph D) (f : D → Nat)
    (checkT : Nat → Option Bool) (seeds : List Nat) (st : DState)
    (P : List Nat) : Prop where
  ndk_csf : NoDupKeys st.costSoFar
  ndk_cf : NoDupKeys st.cameFrom
  ndk_fr : NoDupKeys st.frontier
  ndP : P.Nodup
  keys_iff : ∀ k, acontains st.costSoFar k = true ↔
    acontains st.cameFrom k = true
  fr_sync : ∀ k p, alookup st.frontier k = some p →
    alookup st.costSoFar k = some p
  popped_keyed : ∀ u ∈ P, acontains st.costSoFar u = true
  popped_not_fr : ∀ u ∈ P, acontains st.frontier u = false
  keyed_split : ∀ k, acontains st.costSoFar k = true →
    k ∈ P ∨ acontains st.frontier k = true
  keyed_valid : ∀ k, acontains st.costSoFar k = true →
    k ∈ seeds ∨ k < g.nodes.length
  seed_keyed : ∀ sd ∈ seeds, alookup st.costSoFar sd = some 0 ∧
    alookup st.cameFrom sd = some sd
  parent_spec : ∀ k, acontains st.cameFrom k = true → k ∉ seeds →
    ∃ par pc kc, alookup st.cameFrom k = some par ∧ par ∈ P ∧
      EdgeRel g par k ∧ alookup st.costSoFar par = some pc ∧
      alookup st.costSoFar k = some kc ∧ pc + costAt g f k ≤ kc ∧
      (k ∈ P → pIdx P par < pIdx P k)
  popped_min : ∀ u ∈ P, ∀ c, alookup st.costSoFar u = some c →
    ∀ w, SeedWalk g seeds w u → c ≤ walkCost g f w
  realizing : ∀ k c, alookup st.costSoFar k = some c →
    ∃ w, SeedWalk g seeds w k ∧ walkCost g f w ≤ c
  match_in_fr : ∀ k, acontains st.costSoFar k = true →
    checkT k = some true → acontains st.frontier k = true
  popped_nomatch : ∀ u ∈ P, checkT u = some false
  val_bound : ∀ p ∈ st.costSoFar,
    p.2 ≤ st.costSoFar.length * maxCost g f

/-- Relaxation bounds hold for every settled node. -/
def AllRelaxed (g : VecGraph D) (f : D → Nat) (csf : List (Nat × Nat))
    (P : List Nat) : Prop :=
  ∀ u ∈ P, ∀ l, g.get_neighbors u = some l → Relaxed g f csf u l

/-- Full loop invariant. -/
def LoopInv (g : VecGraph D) (f : D → Nat) (checkT : Nat → Option Bool)
    (seeds : List Nat) (st : DState) (P : List Nat) : Prop :=
  InvCore g f checkT seeds st P ∧ AllRelaxed g f st.costSoFar P

/-- Pop rank of a handle: its pop position, or the number of pops for a
handle still unpopped.  The predecessor chain strictly descends in rank. -/
def rank (P : List Nat) (u : Nat) : Nat :=
  if u ∈ P then pIdx P u else P.length

/-- A two-node arena graph with a single edge from handle 0 to handle 1
(payloads 5 and 9). -/
def pg2 : VecGraph Nat := ⟨[⟨5, 0, some 0⟩, ⟨9, 1, none⟩], [⟨1, none⟩]⟩

/-- A two-node arena graph with no edges (payloads 5 and 9). -/
def islands2 : VecGraph Nat := ⟨[⟨5, 0, none⟩, ⟨9, 1, none⟩], []⟩

/-! ## Lemmas: association lists -/

theorem alookup_eq_none (m : List (Nat × Nat)) (k : Nat) :
    alookup m k = none ↔ ∀ v, (k, v) ∉ m := by
  induction m with
  | nil => simp [alookup]
  | cons hd tl ih =>
    obtain ⟨k', v'⟩ := hd
    by_cases hk : k' = k
    · subst hk
      simp only [alookup, if_pos rfl]
      constructor
      · intro h; cases h
      · intro h
        exact absurd (List.mem_cons_self _ _) (h v')
    · simp only [alookup, if_neg hk, ih, List.mem_cons]
      constructor
      · intro h v hv
        rcases hv with hv | hv
        · exact hk (congrArg Prod.fst hv).symm
        · exact h v hv
      · intro h v hv
        exact h v (Or.inr hv)

theorem alookup_mem {m : List (Nat × Nat)} {k v : Nat}
    (h : alookup m k = some v) : (k, v) ∈ m := by
  induction m with
  | nil => simp [alookup] at h
  | cons hd tl ih =>
    obtain ⟨k', v'⟩ := hd
    rw [alookup] at h
    split at h
    · rename_i heq
      obtain rfl := heq
      obtain rfl := Option.some.inj h
      exact List.mem_cons_self _ _
    · exact List.mem_cons_of_mem _ (ih h)

theorem mem_alookup {m : List (Nat × Nat)} {k v : Nat}
    (hm : NoDupKeys m) (h : (k, v) ∈ m) : alookup m k = some v := by
  induction m with
  | nil => simp at h
  | cons hd tl ih =>
    obtain ⟨k', v'⟩ := hd
    simp only [NoDupKeys, List.map_cons, List.nodup_cons] at hm
    rcases List.mem_cons.mp h with h | h
    · have h1 : k = k' := congrArg Prod.fst h
      have h2 : v = v' := congrArg Prod.snd h
      subst h1
      subst h2
      simp [alookup]
    · have hk : k' ≠ k := by
        rintro rfl
        exact hm.1 (List.mem_map.mpr ⟨(k', v), h, rfl⟩)
      rw [alookup, if_neg hk]
      exact ih hm.2 h

theorem acontains_iff (m : List (Nat × Nat)) (k : Nat) :
    acontains m k = true ↔ ∃ v, alookup m k = some v := by
  unfold acontains
  cases alookup m k <;> simp

theorem acontains_eq_false (m : List (Nat × Nat)) (k : Nat) :
    acontains m k = false ↔ alookup m k = none := by
  unfold acontains
  cases alookup m k <;> simp

theorem alookup_append_of_none {m₁ : List (Nat × Nat)} {k : Nat}
    (m₂ : List (Nat × Nat)) (h : alookup m₁ k = none) :
    alookup (m₁ ++ m₂) k = alookup m₂ k := by
  induction m₁ with
  | nil => simp
  | cons hd tl ih =>
    obtain ⟨k', v'⟩ := hd
    rw [alookup] at h
    split at h
    · cases h
    · rename_i hk
      rw [List.cons_append, alookup, if_neg hk]
      exact ih h

theorem alookup_append_of_some {m₁ : List (Nat × Nat)} {k v : Nat}
    (m₂ : List (Nat × Nat)) (h : alookup m₁ k = some v) :
    alookup (m₁ ++ m₂) k = some v := by
  induction m₁ with
  | nil => simp [alookup] at h
  | cons hd tl ih =>
    obtain ⟨k', v'⟩ := hd
    rw [alookup] at h
    rw [List.cons_append, alookup]
    split at h
    · rename_i heq
      rw [if_pos heq]
      exact h
    · rename_i hne
      rw [if_neg hne]
      exact ih h

theorem alookup_aset_self (m : List (Nat × Nat)) (k v : Nat) :
    alookup (aset m k v) k = some v := by
  induction m with
  | nil => simp [aset, alookup]
  | cons hd tl ih =>
    obtain ⟨k', v'⟩ := hd
    by_cases hk : k' = k
    · subst hk
      rw [aset, if_pos rfl, alookup, if_pos rfl]
    · rw [aset, if_neg hk, alookup, if_neg hk]
      exact ih

theorem alookup_aset_ne (m : List (Nat × Nat)) {k k' : Nat} (v : Nat)
    (h : k' ≠ k) : alookup (aset m k v) k' = alookup m k' := by
  have hne : k ≠ k' := fun hh => h hh.symm
  induction m with
  | nil =>
    simp only [aset, alookup]
    rw [if_neg hne]
  | cons hd tl ih =>
    obtain ⟨k₀, v₀⟩ := hd
    by_cases hk : k₀ = k
    · subst hk
      rw [aset, if_pos rfl, alookup, alookup, if_neg hne, if_neg hne]
    · rw [aset, if_neg hk, alookup, alookup]
      by_cases hk' : k₀ = k'
      · rw [if_pos hk', if_pos hk']
      · rw [if_neg hk', if_neg hk', ih]

theorem keys_aset (m : List (Nat × Nat)) (k v : Nat) :
    (aset m k v).map Prod.fst =
      if acontains m k then m.map Prod.fst else m.map Prod.fst ++ [k] := by
  induction m with
  | nil => simp [aset, acontains, alookup]
  | cons hd tl ih =>
    obtain ⟨k', v'⟩ := hd
    by_cases hk : k' = k
    · subst hk
      rw [aset, if_pos rfl]
      have : acontains ((k', v') :: tl) k' = true := by
        simp [acontains, alookup]
      rw [this, if_pos rfl]
      simp
    · rw [aset, if_neg hk]
      have hcc : acontains ((k', v') :: tl) k = acontains tl k := by
        simp [acontains, alookup, hk]
      rw [List.map_cons, ih, hcc]
      cases h : acontains tl k <;> simp

theorem noDupKeys_aset {m : List (Nat × Nat)} (hm : NoDupKeys m) (k v : Nat) :
    NoDupKeys (aset m k v) := by
  unfold NoDupKeys
  rw [keys_aset]
  cases h : acontains m k with
  | true => simpa using hm
  | false =>
    rw [if_neg (by simp)]
    rw [List.nodup_append]
    refine ⟨hm, List.nodup_singleton _, ?_⟩
    intro a ha hb
    simp only [List.mem_singleton] at hb
    subst hb
    obtain ⟨⟨k₀, v₀⟩, hmem, hfst⟩ := List.mem_map.mp ha
    simp only at hfst
    subst hfst
    rw [acontains_eq_false, alookup_eq_none] at h
    exact h v₀ hmem

theorem length_aset (m : List (Nat × Nat)) (k v : Nat) :
    (aset m k v).length =
      if acontains m k then m.length else m.length + 1 := by
  have h1 : (aset m k v).length = ((aset m k v).map Prod.fst).length := by
    simp
  have h2 : m.length = (m.map Prod.fst).length := by simp
  rw [h1, keys_aset, h2]
  cases h : acontains m k <;> simp

theorem values_aset_le {m : List (Nat × Nat)} {bound : Nat}
    (hm : ∀ p ∈ m, p.2 ≤ bound) {k v : Nat} (hv : v ≤ bound) :
    ∀ p ∈ aset m k v, p.2 ≤ bound := by
  induction m with
  | nil =>
    intro p hp
    rw [aset] at hp
    simp only [List.mem_singleton] at hp
    subst hp
    exact hv
  | cons hd tl ih =>
    obtain ⟨k', v'⟩ := hd
    intro p hp
    by_cases hk : k' = k
    · subst hk
      rw [aset, if_pos rfl] at hp
      rcases List.mem_cons.mp hp with h | h
      · subst h; exact hv
      · exact hm p (List.mem_cons_of_mem _ h)
    · rw [aset, if_neg hk] at hp
      rcases List.mem_cons.mp hp with h | h
      · subst h
        exact hm _ (List.mem_cons_self _ _)
      · exact ih (fun q hq => hm q (List.mem_cons_of_mem _ hq)) p h

/-! ## Lemmas: the priority queue -/

theorem popMin_eq_none {q : List (Nat × Nat)} :
    popMin q = none ↔ q = [] := by
  cases q with
  | nil => simp [popMin]
  | cons hd tl =>
    obtain ⟨k, p⟩ := hd
    simp only [popMin]
    cases h : popMin tl with
    | none => simp
    | some r =>
      obtain ⟨⟨k', p'⟩, rest'⟩ := r
      by_cases hp : p ≤ p' <;> simp [hp]

theorem popMin_split {q : List (Nat × Nat)} {k p : Nat}
    {rest : List (Nat × Nat)} (h : popMin q = some ((k, p), rest)) :
    ∃ l₁ l₂, q = l₁ ++ (k, p) :: l₂ ∧ rest = l₁ ++ l₂ := by
  induction q generalizing k p rest with
  | nil => simp [popMin] at h
  | cons hd tl ih =>
    obtain ⟨k₀, p₀⟩ := hd
    simp only [popMin] at h
    cases htl : popMin tl with
    | none =>
      rw [htl] at h
      simp only [Option.some.injEq, Prod.mk.injEq] at h
      obtain ⟨⟨rfl, rfl⟩, rfl⟩ := h
      rw [popMin_eq_none] at htl
      subst htl
      exact ⟨[], [], rfl, rfl⟩
    | some r =>
      obtain ⟨⟨k', p'⟩, rest'⟩ := r
      rw [htl] at h
      by_cases hp : p₀ ≤ p'
      · simp only [if_pos hp, Option.some.injEq, Prod.mk.injEq] at h
        obtain ⟨⟨rfl, rfl⟩, rfl⟩ := h
        exact ⟨[], tl, rfl, rfl⟩
      · simp only [if_neg hp, Option.some.injEq, Prod.mk.injEq] at h
        obtain ⟨⟨rfl, rfl⟩, rfl⟩ := h
        obtain ⟨l₁, l₂, h1, h2⟩ := ih htl
        exact ⟨(k₀, p₀) :: l₁, l₂, by simp [h1], by simp [h2]⟩

theorem popMin_min {q : List (Nat × Nat)} {k p : Nat}
    {rest : List (Nat × Nat)} (h : popMin q = some ((k, p), rest)) :
    ∀ e ∈ q, p ≤ e.2 := by
  induction q generalizing k p rest with
  | nil => simp [popMin] at h
  | cons hd tl ih =>
    obtain ⟨k₀, p₀⟩ := hd
    simp only [popMin] at h
    cases htl : popMin tl with
    | none =>
      rw [htl] at h
      simp only [Option.some.injEq, Prod.mk.injEq] at h
      obtain ⟨⟨rfl, rfl⟩, rfl⟩ := h
      rw [popMin_eq_none] at htl
      subst htl
      simp
    | some r =>
      obtain ⟨⟨k', p'⟩, rest'⟩ := r
      rw [htl] at h
      intro e he
      by_cases hp : p₀ ≤ p'
      · simp only [if_pos hp, Option.some.injEq, Prod.mk.injEq] at h
        obtain ⟨⟨rfl, rfl⟩, rfl⟩ := h
        rcases List.mem_cons.mp he with rfl | he
        · exact le_refl _
        · exact le_trans hp (ih htl e he)
      · simp only [if_neg hp, Option.some.injEq, Prod.mk.injEq] at h
        obtain ⟨⟨rfl, rfl⟩, rfl⟩ := h
        rcases List.mem_cons.mp he with rfl | he
        · omega
        · exact ih htl e he

theorem keys_qpush (q : List (Nat × Nat)) (k p : Nat) :
    (qpush q k p).map Prod.fst =
      if acontains q k then q.map Prod.fst else q.map Prod.fst ++ [k] := by
  unfold qpush
  cases h : acontains q k with
  | true =>
    rw [if_pos rfl, if_pos rfl, keys_aset, if_pos h]
  | false =>
    rw [if_neg (by simp), if_neg (by simp)]
    simp

theorem alookup_qpush_self (q : List (Nat × Nat)) (k p : Nat) :
    alookup (qpush q k p) k = some p := by
  unfold qpush
  cases h : acontains q k with
  | true =>
    rw [if_pos rfl]
    exact alookup_aset_self q k p
  | false =>
    rw [if_neg (by simp)]
    rw [alookup_append_of_none _ ((acontains_eq_false q k).mp h)]
    simp [alookup]

theorem alookup_qpush_ne (q : List (Nat × Nat)) {k k' : Nat} (p : Nat)
    (h : k' ≠ k) : alookup (qpush q k p) k' = alookup q k' := by
  unfold qpush
  cases hc : acontains q k with
  | true =>
    rw [if_pos rfl]
    exact alookup_aset_ne q p h
  | false =>
    rw [if_neg (by simp)]
    cases hl : alookup q k' with
    | some v => rw [alookup_append_of_some _ hl]
    | none =>
      rw [alookup_append_of_none _ hl]
      simp only [alookup]
      rw [if_neg (fun hh => h hh.symm)]

theorem noDupKeys_qpush {q : List (Nat × Nat)} (hq : NoDupKeys q)
    (k p : Nat) : NoDupKeys (qpush q k p) := by
  unfold NoDupKeys
  rw [keys_qpush]
  cases h : acontains q k with
  | true => simpa using hq
  | false =>
    rw [if_neg (by simp)]
    rw [List.nodup_append]
    refine ⟨hq, List.nodup_singleton _, ?_⟩
    intro a ha hb
    simp only [List.mem_singleton] at hb
    subst hb
    obtain ⟨⟨k₀, v₀⟩, hmem, hfst⟩ := List.mem_map.mp ha
    simp only at hfst
    subst hfst
    rw [acontains_eq_false, alookup_eq_none] at h
    exact h v₀ hmem

/-! ## Lemmas: the intrusive edge lists and the graph builder -/

theorem chase_fuel_mono {edges : List EdgeData} {eo : Option Nat}
    {fuel : Nat} {l : List Nat} (h : chase edges eo fuel = some l) :
    ∀ fuel', fuel ≤ fuel' → chase edges eo fuel' = some l := by
  induction fuel generalizing eo l with
  | zero =>
    cases eo with
    | none =>
      intro fuel' _
      simp only [chase] at h
      cases fuel' <;> simpa [chase] using h
    | some e => simp [chase] at h
  | succ f ih =>
    intro fuel' hf
    cases eo with
    | none =>
      simp only [chase] at h
      cases fuel' <;> simpa [chase] using h
    | some e =>
      obtain ⟨f', rfl⟩ : ∃ f', fuel' = f' + 1 := ⟨fuel' - 1, by omega⟩
      cases hg : edges[e]? with
      | none => simp [chase, hg] at h
      | some ed =>
        simp only [chase, hg] at h ⊢
        cases hc : chase edges ed.next_outgoing_edge f with
        | none => rw [hc] at h; cases h
        | some l' =>
          rw [hc] at h
          rw [ih hc f' (by omega)]
          exact h

theorem chase_append_of_some {edges : List EdgeData} {eo : Option Nat}
    {fuel : Nat} {l : List Nat} (extra : List EdgeData)
    (h : chase edges eo fuel = some l) :
    chase (edges ++ extra) eo fuel = some l := by
  induction fuel generalizing eo l with
  | zero =>
    cases eo with
    | none => simpa [chase] using h
    | some e => simp [chase] at h
  | succ f ih =>
    cases eo with
    | none => simpa [chase] using h
    | some e =>
      cases hg : edges[e]? with
      | none => simp [chase, hg] at h
      | some ed =>
        simp only [chase, hg] at h
        have hlen : e < edges.length := by
          by_contra hc
          rw [List.getElem?_eq_none (by omega)] at hg
          cases hg
        simp only [chase, List.getElem?_append_left hlen, hg]
        cases hc : chase edges ed.next_outgoing_edge f with
        | none => rw [hc] at h; cases h
        | some l' =>
          rw [hc] at h
          rw [ih hc]
          exact h

theorem get_neighbors_some_imp_lt {g : VecGraph D} {h : Nat} {l : List Nat}
    (hn : g.get_neighbors h = some l) : h < g.nodes.length := by
  unfold VecGraph.get_neighbors at hn
  cases hg : g.nodes[h]? with
  | none => rw [hg] at hn; cases hn
  | some nd =>
    by_contra hc
    rw [List.getElem?_eq_none (by omega)] at hg
    cases hg

theorem get_neighbors_none_of_ge {g : VecGraph D} {h : Nat}
    (hh : g.nodes.length ≤ h) : g.get_neighbors h = none := by
  unfold VecGraph.get_neighbors
  rw [List.getElem?_eq_none hh]

/-- `add_node` leaves every existing neighbor list unchanged and gives the
new node an empty one. -/
theorem add_node_neighbors (g : VecGraph D) (d : D) :
    (∀ h l, g.get_neighbors h = some l →
      (g.add_node d).1.get_neighbors h = some l) ∧
    (g.add_node d).1.get_neighbors g.nodes.length = some [] := by
  constructor
  · intro h l hl
    have hlt := get_neighbors_some_imp_lt hl
    unfold VecGraph.get_neighbors at hl ⊢
    unfold VecGraph.add_node
    simp only
    rw [List.getElem?_append_left hlt]
    exact hl
  · unfold VecGraph.get_neighbors VecGraph.add_node
    simp only
    rw [List.getElem?_concat_length]
    simp [chase]

/-- Successful `add_edge s t` prepends `t` to the neighbor list of `s` and
leaves every other neighbor list unchanged. -/
theorem add_edge_neighbors {g g' : VecGraph D} {s t : Nat}
    (hadd : g.add_edge s t = some g') :
    g'.nodes.length = g.nodes.length ∧
    (∀ l, g.get_neighbors s = some l → g'.get_neighbors s = some (t :: l)) ∧
    (∀ h l, h ≠ s → g.get_neighbors h = some l →
      g'.get_neighbors h = some l) := by
  unfold VecGraph.add_edge at hadd
  by_cases hb : g.nodes.length < t
  · rw [if_pos hb] at hadd; cases hadd
  rw [if_neg hb] at hadd
  cases hs : g.nodes[s]? with
  | none => rw [hs] at hadd; cases hadd
  | some sn =>
    rw [hs] at hadd
    obtain rfl := Option.some.inj hadd
    have hslt : s < g.nodes.length := by
      by_contra hc
      rw [List.getElem?_eq_none (by omega)] at hs
      cases hs
    refine ⟨by simp, ?_, ?_⟩
    · intro l hl
      unfold VecGraph.get_neighbors at hl ⊢
      rw [hs] at hl
      simp only [List.getElem?_set_self hslt]
      have hlen : (g.edges ++ [(⟨t, sn.first_outgoing_edge⟩ : EdgeData)]).length =
          g.edges.length + 1 := by simp
      rw [hlen, chase, List.getElem?_concat_length]
      dsimp only
      rw [chase_append_of_some _ hl]
      rfl
    · intro h l hh hl
      have hlt := get_neighbors_some_imp_lt hl
      unfold VecGraph.get_neighbors at hl ⊢
      simp only [List.getElem?_set_ne (fun he => hh he.symm)]
      cases hg : g.nodes[h]? with
      | none => rw [hg] at hl; cases hl
      | some nd =>
        rw [hg] at hl
        dsimp only at hl
        dsimp only
        have hlen : (g.edges ++ [(⟨t, sn.first_outgoing_edge⟩ : EdgeData)]).length =
            g.edges.length + 1 := by simp
        rw [hlen]
        exact chase_fuel_mono (chase_append_of_some _ hl) _ (by omega)

theorem edgeTargetsFrom_addNode (d : D) (ops : List (Op D)) (h : Nat) :
    edgeTargetsFrom (.addNode d :: ops) h = edgeTargetsFrom ops h := by
  simp [edgeTargetsFrom]

theorem edgeTargetsFrom_addEdge_self (s t : Nat) (ops : List (Op D)) :
    edgeTargetsFrom (.addEdge s t :: ops) s = t :: edgeTargetsFrom ops s := by
  simp [edgeTargetsFrom]

theorem edgeTargetsFrom_addEdge_ne {s h : Nat} (t : Nat) (ops : List (Op D))
    (hne : s ≠ h) :
    edgeTargetsFrom (.addEdge s t :: ops) h = edgeTargetsFrom ops h := by
  simp [edgeTargetsFrom, hne]

/-- Induction workhorse for claim C4: running any operation suffix from a
graph whose valid handles all enumerate, every final neighbor list is the
reverse of the suffix's insertions from that node, prepended to whatever
the node already had. -/
theorem applyOps_neighbors_aux :
    ∀ (rest : List (Op D)) (g g' : VecGraph D),
      applyOps g rest = some g' →
      GoodG g →
      (∀ h l, g.get_neighbors h = some l →
        g'.get_neighbors h = some ((edgeTargetsFrom rest h).reverse ++ l)) ∧
      (∀ h, g.nodes.length ≤ h → h < g'.nodes.length →
        g'.get_neighbors h = some (edgeTargetsFrom rest h).reverse) := by
  intro rest
  induction rest with
  | nil =>
    intro g g' happ _
    obtain rfl := Option.some.inj happ
    constructor
    · intro h l hl
      simpa [edgeTargetsFrom] using hl
    · intro h h1 h2
      omega
  | cons op rest ih =>
    intro g g' happ hgood
    cases op with
    | addNode d =>
      simp only [applyOps] at happ
      set g₁ := (g.add_node d).1 with hg₁
      have hgood₁ : GoodG g₁ := by
        intro h hh
        have hlen : g₁.nodes.length = g.nodes.length + 1 := by
          simp [hg₁, VecGraph.add_node]
        rw [hlen] at hh
        by_cases hc : h < g.nodes.length
        · obtain ⟨l, hl⟩ := hgood h hc
          exact ⟨l, (add_node_neighbors g d).1 h l hl⟩
        · have : h = g.nodes.length := by omega
          subst this
          exact ⟨[], (add_node_neighbors g d).2⟩
      obtain ⟨A, B⟩ := ih g₁ g' happ hgood₁
      constructor
      · intro h l hl
        rw [edgeTargetsFrom_addNode]
        exact A h l ((add_node_neighbors g d).1 h l hl)
      · intro h h1 h2
        rw [edgeTargetsFrom_addNode]
        by_cases hc : h = g.nodes.length
        · subst hc
          have := A g.nodes.length [] (add_node_neighbors g d).2
          simpa using this
        · apply B h _ h2
          simp only [hg₁, VecGraph.add_node]
          simp only [List.length_append, List.length_cons, List.length_nil]
          omega
    | addEdge s t =>
      simp only [applyOps] at happ
      cases hadd : g.add_edge s t with
      | none => rw [hadd] at happ; cases happ
      | some g₁ =>
        rw [hadd] at happ
        obtain ⟨hlen, hself, hother⟩ := add_edge_neighbors hadd
        have hsval : s < g.nodes.length := by
          unfold VecGraph.add_edge at hadd
          by_cases hb : g.nodes.length < t
          · rw [if_pos hb] at hadd; cases hadd
          rw [if_neg hb] at hadd
          cases hs : g.nodes[s]? with
          | none => rw [hs] at hadd; cases hadd
          | some sn =>
            by_contra hc
            rw [List.getElem?_eq_none (by omega)] at hs
            cases hs
        have hgood₁ : GoodG g₁ := by
          intro h hh
          rw [hlen] at hh
          obtain ⟨l, hl⟩ := hgood h hh
          by_cases hc : h = s
          · subst hc
            exact ⟨t :: l, hself l hl⟩
          · exact ⟨l, hother h l hc hl⟩
        obtain ⟨A, B⟩ := ih g₁ g' happ hgood₁
        constructor
        · intro h l hl
          by_cases hc : h = s
          · subst hc
            rw [edgeTargetsFrom_addEdge_self]
            have := A h (t :: l) (hself l hl)
            simpa using this
          · rw [edgeTargetsFrom_addEdge_ne _ _ (fun he => hc he.symm)]
            exact A h l (hother h l hc hl)
        · intro h h1 h2
          have hhs : s ≠ h := by omega
          rw [edgeTargetsFrom_addEdge_ne _ _ hhs]
          exact B h (by omega) h2

/-! ## Lemmas: the shared-ownership graph builder -/

theorem rc_add_node_step (g : RcGraph D) (d : D) :
    (∀ (i : Nat) (nd : RcNode D),
      g.nodes[i]? = some nd → (g.add_node d).1.nodes[i]? = some nd) ∧
    (g.add_node d).1.nodes[g.nodes.length]? = some (.mk d g.nodes.length []) ∧
    (g.add_node d).1.nodes.length = g.nodes.length + 1 := by
  refine ⟨?_, ?_, by simp [RcGraph.add_node]⟩
  · intro i nd hi
    have hlt : i < g.nodes.length := by
      by_contra hc
      rw [List.getElem?_eq_none (by omega)] at hi
      cases hi
    unfold RcGraph.add_node
    simpa [List.getElem?_append_left hlt] using hi
  · unfold RcGraph.add_node
    simp [List.getElem?_concat_length]

theorem rc_add_edge_step {g g₁ : RcGraph D} {s t : Nat}
    (h : g.add_edge s t = some g₁) :
    ∃ sn tn, g.nodes[s]? = some sn ∧ g.nodes[t]? = some tn ∧
      g₁.nodes.length = g.nodes.length ∧
      g₁.nodes[s]? =
        some (.mk (RcNode.data sn) (RcNode.index sn)
          (RcNode.neighbors sn ++ [tn])) ∧
      (∀ i, i ≠ s → g₁.nodes[i]? = g.nodes[i]?) := by
  unfold RcGraph.add_edge at h
  cases ht : g.nodes[t]? with
  | none => rw [ht] at h; cases h
  | some tn =>
    cases hs : g.nodes[s]? with
    | none => rw [ht, hs] at h; cases h
    | some sn =>
      rw [ht, hs] at h
      obtain rfl := Option.some.inj h
      have hslt : s < g.nodes.length := by
        by_contra hc
        rw [List.getElem?_eq_none (by omega)] at hs
        cases hs
      refine ⟨sn, tn, rfl, rfl, by simp, ?_, ?_⟩
      · simpa using List.getElem?_set_self (l := g.nodes) hslt
      · intro i hi
        simpa using List.getElem?_set_ne (l := g.nodes) (fun he => hi he.symm)

/-- Induction workhorse for claim C10: neighbor-index lists of the
shared-ownership graph grow by appending each inserted target, in
insertion order. -/
theorem applyRcOps_neighbors_aux :
    ∀ (rest : List (Op D)) (g g' : RcGraph D),
      applyRcOps g rest = some g' →
      RcOk g →
      RcOk g' ∧
      (∀ i nd, g.nodes[i]? = some nd →
        ∃ nd', g'.nodes[i]? = some nd' ∧
          (RcNode.neighbors nd').map RcNode.index =
            (RcNode.neighbors nd).map RcNode.index ++
              edgeTargetsFrom rest i) ∧
      (∀ i, g.nodes.length ≤ i → ∀ nd', g'.nodes[i]? = some nd' →
        (RcNode.neighbors nd').map RcNode.index = edgeTargetsFrom rest i) := by
  intro rest
  induction rest with
  | nil =>
    intro g g' happ hok
    obtain rfl := Option.some.inj happ
    refine ⟨hok, ?_, ?_⟩
    · intro i nd hi
      exact ⟨nd, hi, by simp [edgeTargetsFrom]⟩
    · intro i hi nd' hnd'
      have : i < g.nodes.length := by
        by_contra hc
        rw [List.getElem?_eq_none (by omega)] at hnd'
        cases hnd'
      omega
  | cons op rest ih =>
    intro g g' happ hok
    cases op with
    | addNode d =>
      simp only [applyRcOps] at happ
      obtain ⟨hold, hnew, hlen⟩ := rc_add_node_step g d
      have hok₁ : RcOk (g.add_node d).1 := by
        intro i nd hi
        have hi' : i < g.nodes.length + 1 := by
          by_contra hc
          rw [List.getElem?_eq_none (by omega)] at hi
          cases hi
        by_cases hc : i < g.nodes.length
        · cases hg : g.nodes[i]? with
          | none =>
            rw [List.getElem?_eq_none_iff] at hg
            omega
          | some nd₀ =>
            have := hold i nd₀ hg
            rw [this] at hi
            obtain rfl := Option.some.inj hi
            exact hok i nd₀ hg
        · have hieq : i = g.nodes.length := by omega
          subst hieq
          rw [hnew] at hi
          obtain rfl := Option.some.inj hi
          rfl
      obtain ⟨hok', A, B⟩ := ih (g.add_node d).1 g' happ hok₁
      refine ⟨hok', ?_, ?_⟩
      · intro i nd hi
        rw [edgeTargetsFrom_addNode]
        exact A i nd (hold i nd hi)
      · intro i hi nd' hnd'
        rw [edgeTargetsFrom_addNode]
        by_cases hc : i = g.nodes.length
        · subst hc
          obtain ⟨nd'', hnd'', heq⟩ := A _ _ hnew
          rw [hnd''] at hnd'
          obtain rfl := Option.some.inj hnd'
          simpa using heq
        · exact B i (by omega) nd' hnd'
    | addEdge a b =>
      simp only [applyRcOps] at happ
      cases hadd : g.add_edge a b with
      | none => rw [hadd] at happ; cases happ
      | some g₁ =>
        rw [hadd] at happ
        obtain ⟨sn, tn, hs, ht, hlen, hupd, hfr⟩ := rc_add_edge_step hadd
        have haval : a < g.nodes.length := by
          by_contra hc
          rw [List.getElem?_eq_none (by omega)] at hs
          cases hs
        have hok₁ : RcOk g₁ := by
          intro i nd hi
          by_cases hc : i = a
          · subst hc
            rw [hupd] at hi
            obtain rfl := Option.some.inj hi
            exact hok i sn hs
          · rw [hfr i hc] at hi
            exact hok i nd hi
        obtain ⟨hok', A, B⟩ := ih g₁ g' happ hok₁
        refine ⟨hok', ?_, ?_⟩
        · intro i nd hi
          by_cases hc : i = a
          · subst hc
            rw [hs] at hi
            obtain rfl := Option.some.inj hi
            obtain ⟨nd', hnd', heq⟩ := A _ _ hupd
            refine ⟨nd', hnd', ?_⟩
            rw [heq, edgeTargetsFrom_addEdge_self]
            have hti : RcNode.index tn = b := hok b tn ht
            simp [RcNode.neighbors, hti]
          · obtain ⟨nd', hnd', heq⟩ := A i nd (by rw [hfr i hc]; exact hi)
            refine ⟨nd', hnd', ?_⟩
            rw [heq, edgeTargetsFrom_addEdge_ne _ _ (fun he => hc he.symm)]
        · intro i hi nd' hnd'
          have hia : a ≠ i := by omega
          rw [edgeTargetsFrom_addEdge_ne _ _ hia]
          exact B i (by omega) nd' hnd'

/-! ## Claim C2 (`add_edge` must reject any non-existent target) -/

/-- Claim C2 is a code bug: `VecGraph::add_edge` guards with
`self.nodes.len() < target.0` instead of `<=`, so on a one-node graph the
call `add_edge(0, 1)` does not panic although node 1 does not exist, and a
dangling edge record with target 1 is stored, violating the spec's
"no dangling edges" invariant.  This theorem evaluates the model at that
failing input. -/
theorem C2_addEdge_offByOne_stores_dangling_edge :
    oneNodeGraph.nodes.length = 1 ∧
    (oneNodeGraph.add_edge 0 1).map (fun g' => g'.edges) =
      some [⟨1, none⟩] ∧
    (oneNodeGraph.add_edge 0 2) = none := by
  decide

/-! ## Claim C4 (arena neighbor order is reverse insertion order) -/

/-- Claim C4: on every graph built through the public API, the neighbor
list of every valid handle `h` is exactly the reverse of the sequence of
edge targets inserted from `h`, duplicates included. -/
theorem C4_arena_neighbors_reverse_insertion (ops : List (Op D))
    (g : VecGraph D) (happ : applyOps (VecGraph.new D) ops = some g)
    (h : Nat) (hh : h < g.nodes.length) :
    g.get_neighbors h = some (edgeTargetsFrom ops h).reverse := by
  have hgood : GoodG (VecGraph.new D) := by
    intro i hi
    simp [VecGraph.new] at hi
  obtain ⟨A, B⟩ := applyOps_neighbors_aux ops (VecGraph.new D) g happ hgood
  exact B h (by simp [VecGraph.new]) hh

/-- Witness for C4 at the concrete build with targets 1, 2, 2 inserted
from node 0: the enumeration is the reverse, [2, 2, 1]. -/
theorem C4_witness :
    c4G.get_neighbors 0 = some [2, 2, 1] :=
  (C4_arena_neighbors_reverse_insertion c4Ops c4G (by decide) 0
    (by decide)).trans (by decide)

/-! ## Claim C5 (`dijkstra(s, s, f)` returns `[s]`) -/

/-- Claim C5: searching from a valid handle to itself returns the
singleton path, whatever the edges are: the very first pop is the target,
and the start seeds its own predecessor. -/
theorem C5_dijkstra_self_singleton (g : VecGraph D) (s : Nat) (f : D → Nat)
    (_hs : s < g.nodes.length) : dijkstra g s s f = some [s] := by
  unfold dijkstra
  obtain ⟨m, hm⟩ : ∃ m, fuelFor g f [s] = m + 1 := ⟨_, rfl⟩
  rw [hm]
  simp [loopGo, popMin, reconstruct_path, acontains, alookup, reconGo]

/-- Witness for C5 on the one-node graph. -/
theorem C5_witness :
    0 < oneNodeGraph.nodes.length ∧
      dijkstra oneNodeGraph 0 0 (fun d => d) = some [0] :=
  ⟨by decide, C5_dijkstra_self_singleton oneNodeGraph 0 _ (by decide)⟩

/-! ## Claim C9 (shared-ownership `add_edge` clones, mutation diverges) -/

/-- Claim C9: `RcGraph::add_edge(s, t)` appends a copy of the whole target
node (payload and neighbor list as they are at that moment) to the source
node's neighbor list, and a later payload mutation through `get_data_mut`
(of any node) leaves the stored copy - in particular its payload -
untouched. -/
theorem C9_rc_add_edge_clone_unaffected_by_mutation (g : RcGraph D)
    (s t : Nat) (sn tn : RcNode D)
    (hs : g.nodes[s]? = some sn) (ht : g.nodes[t]? = some tn) :
    ∃ g₁, g.add_edge s t = some g₁ ∧
      g₁.nodes[s]? = some (.mk (RcNode.data sn) (RcNode.index sn)
        (RcNode.neighbors sn ++ [tn])) ∧
      ∀ (i : Nat) (d' : D) (g₂ : RcGraph D), g₁.set_data i d' = some g₂ →
        ∃ d₂, g₂.nodes[s]? = some (.mk d₂ (RcNode.index sn)
          (RcNode.neighbors sn ++ [tn])) := by
  have hslt : s < g.nodes.length := by
    by_contra hc
    rw [List.getElem?_eq_none (by omega)] at hs
    cases hs
  refine ⟨⟨g.nodes.set s (.mk (RcNode.data sn) (RcNode.index sn)
      (RcNode.neighbors sn ++ [tn]))⟩, ?_, ?_, ?_⟩
  · unfold RcGraph.add_edge
    rw [ht, hs]
  · simpa using List.getElem?_set_self (l := g.nodes) hslt
  · intro i d' g₂ h₂
    unfold RcGraph.set_data at h₂
    by_cases hc : i = s
    · subst hc
      rw [show (⟨g.nodes.set i (.mk (RcNode.data sn) (RcNode.index sn)
          (RcNode.neighbors sn ++ [tn]))⟩ : RcGraph D).nodes[i]? =
          some (.mk (RcNode.data sn) (RcNode.index sn)
            (RcNode.neighbors sn ++ [tn])) from by
        simpa using List.getElem?_set_self (l := g.nodes) hslt] at h₂
      obtain rfl := Option.some.inj h₂
      refine ⟨d', ?_⟩
      have hlen : i < (g.nodes.set i (.mk (RcNode.data sn) (RcNode.index sn)
          (RcNode.neighbors sn ++ [tn]))).length := by
        simpa using hslt
      simpa using List.getElem?_set_self
        (l := g.nodes.set i (.mk (RcNode.data sn) (RcNode.index sn)
          (RcNode.neighbors sn ++ [tn]))) hlen
    · cases hgi : (⟨g.nodes.set s (.mk (RcNode.data sn) (RcNode.index sn)
          (RcNode.neighbors sn ++ [tn]))⟩ : RcGraph D).nodes[i]? with
      | none => rw [hgi] at h₂; cases h₂
      | some nd =>
        rw [hgi] at h₂
        obtain rfl := Option.some.inj h₂
        refine ⟨RcNode.data sn, ?_⟩
        simp only
        rw [List.getElem?_set_ne hc]
        simpa using List.getElem?_set_self (l := g.nodes) hslt

/-- Witness for C9 on a two-node graph: add an edge 0 to 1, then mutate
node 1's payload; the copy stored inside node 0 still carries payload 6. -/
theorem C9_witness :
    ∃ g₁, rcBase.add_edge 0 1 = some g₁ ∧
      g₁.nodes[0]? = some (.mk 5 0 ([] ++ [.mk 6 1 []])) ∧
      ∀ (i : Nat) (d' : Nat) (g₂ : RcGraph Nat), g₁.set_data i d' = some g₂ →
        ∃ d₂, g₂.nodes[0]? = some (.mk d₂ 0 ([] ++ [.mk 6 1 []])) :=
  C9_rc_add_edge_clone_unaffected_by_mutation rcBase 0 1 (.mk 5 0 [])
    (.mk 6 1 []) (by rfl) (by rfl)

/-! ## Claim C10 (shared-ownership neighbor order is insertion order) -/

/-- Claim C10: on every shared-ownership graph built through the public
API, the neighbor list of every valid handle `h` lists the inserted edge
targets from `h` in insertion order (first added first) - the opposite end
of the arena graph's reverse order. -/
theorem C10_rc_neighbors_insertion_order (ops : List (Op D)) (g : RcGraph D)
    (happ : applyRcOps (RcGraph.new D) ops = some g)
    (h : Nat) (hh : h < g.nodes.length) :
    g.get_neighbors h = some (edgeTargetsFrom ops h) := by
  have hok : RcOk (RcGraph.new D) := by
    intro i nd hi
    simp [RcGraph.new] at hi
  obtain ⟨hok', A, B⟩ := applyRcOps_neighbors_aux ops (RcGraph.new D) g happ hok
  cases hg : g.nodes[h]? with
  | none =>
    rw [List.getElem?_eq_none_iff] at hg
    omega
  | some nd =>
    have hB := B h (by simp [RcGraph.new]) nd hg
    unfold RcGraph.get_neighbors
    rw [hg]
    exact congrArg some hB

/-- Witness for C10 at the same concrete build as C4's: targets 1, 2, 2
inserted from node 0 enumerate as [1, 2, 2]. -/
theorem C10_witness :
    c10G.get_neighbors 0 = some [1, 2, 2] :=
  (C10_rc_neighbors_insertion_order c4Ops c10G (by rfl) 0
    (by decide)).trans (by rfl)

/-! ## Claim C3 (invalid handles: "no path found", not a crash) -/

/-- Counterexample to claim C3 as stated: on the well-formed one-node
graph, `dijkstra` with the invalid start handle 1 and the valid target 0
pops the start, misses the target test, and calls `get_neighbors` on the
invalid handle, which panics in `successors` ("Source not not found!") -
modelled as `none` - instead of returning the empty path. -/
theorem C3_counterexample_invalid_start_panics :
    WellFormed oneNodeGraph ∧ 0 < oneNodeGraph.nodes.length ∧
      dijkstra oneNodeGraph 1 0 (fun d => d) = none := by
  decide

/-! ## Consequences of well-formedness -/

theorem edgesOkB_spec {g : VecGraph D} (h : edgesOkB g = true) :
    (∀ (i : Nat) (nd : NodeData D), g.nodes[i]? = some nd →
      (∀ e, nd.first_outgoing_edge = some e → e < g.edges.length) ∧
        nd.index = i) ∧
    (∀ (j : Nat) (ed : EdgeData), g.edges[j]? = some ed →
      ∀ k, ed.next_outgoing_edge = some k → k < j) := by
  unfold edgesOkB at h
  rw [Bool.and_eq_true] at h
  obtain ⟨h1, h2⟩ := h
  rw [List.all_eq_true] at h1 h2
  constructor
  · intro i nd hi
    have hilt : i < g.nodes.length := by
      by_contra hc
      rw [List.getElem?_eq_none (by omega)] at hi
      cases hi
    have := h1 i (List.mem_range.mpr hilt)
    rw [hi] at this
    dsimp only at this
    rw [Bool.and_eq_true] at this
    obtain ⟨ha, hb⟩ := this
    refine ⟨?_, by simpa using hb⟩
    intro e he
    rw [he] at ha
    dsimp only at ha
    simpa using ha
  · intro j ed hj k hk
    have hjlt : j < g.edges.length := by
      by_contra hc
      rw [List.getElem?_eq_none (by omega)] at hj
      cases hj
    have := h2 j (List.mem_range.mpr hjlt)
    rw [hj] at this
    dsimp only at this
    rw [hk] at this
    simpa using this

theorem noDanglingB_spec {g : VecGraph D} (h : noDanglingB g = true) :
    ∀ (j : Nat) (ed : EdgeData),
      g.edges[j]? = some ed → ed.target < g.nodes.length := by
  unfold noDanglingB at h
  rw [List.all_eq_true] at h
  intro j ed hj
  have hjlt : j < g.edges.length := by
    by_contra hc
    rw [List.getElem?_eq_none (by omega)] at hj
    cases hj
  have := h j (List.mem_range.mpr hjlt)
  rw [hj] at this
  dsimp only at this
  simpa using this

theorem chase_ok {g : VecGraph D}
    (h2 : ∀ (j : Nat) (ed : EdgeData), g.edges[j]? = some ed →
      ∀ k, ed.next_outgoing_edge = some k → k < j)
    (h3 : ∀ (j : Nat) (ed : EdgeData),
      g.edges[j]? = some ed → ed.target < g.nodes.length) :
    ∀ e, e < g.edges.length → ∀ fuel, e + 2 ≤ fuel →
      ∃ l, chase g.edges (some e) fuel = some l ∧
        ∀ z ∈ l, z < g.nodes.length := by
  intro e
  induction e using Nat.strong_induction_on with
  | _ e ih =>
    intro he fuel hfuel
    obtain ⟨f, rfl⟩ : ∃ f, fuel = f + 1 := ⟨fuel - 1, by omega⟩
    have hed : ∃ ed, g.edges[e]? = some ed := by
      rw [List.getElem?_eq_getElem he]
      exact ⟨_, rfl⟩
    obtain ⟨ed, hed⟩ := hed
    cases hnx : ed.next_outgoing_edge with
    | none =>
      refine ⟨[ed.target], ?_, ?_⟩
      · simp only [chase, hed, hnx]
        rfl
      · intro z hz
        simp only [List.mem_singleton] at hz
        subst hz
        exact h3 e ed hed
    | some k =>
      have hk : k < e := h2 e ed hed k hnx
      obtain ⟨l, hl, hval⟩ := ih k hk (by omega) f (by omega)
      refine ⟨ed.target :: l, ?_, ?_⟩
      · simp only [chase, hed, hnx, hl]
        rfl
      · intro z hz
        rcases List.mem_cons.mp hz with rfl | hz
        · exact h3 e ed hed
        · exact hval z hz

/-- Every valid handle of a well-formed graph has a successful neighbor
enumeration yielding only valid handles. -/
theorem wf_get_neighbors {g : VecGraph D} (hWF : WellFormed g) {u : Nat}
    (hu : u < g.nodes.length) :
    ∃ l, g.get_neighbors u = some l ∧ ∀ z ∈ l, z < g.nodes.length := by
  obtain ⟨hE, hN⟩ := hWF
  obtain ⟨h1, h2⟩ := edgesOkB_spec hE
  have h3 := noDanglingB_spec hN
  have hnd : ∃ nd, g.nodes[u]? = some nd := by
    rw [List.getElem?_eq_getElem hu]
    exact ⟨_, rfl⟩
  obtain ⟨nd, hnd⟩ := hnd
  unfold VecGraph.get_neighbors
  rw [hnd]
  dsimp only
  cases hfo : nd.first_outgoing_edge with
  | none =>
    exact ⟨[], by simp [chase], by simp⟩
  | some e =>
    have he : e < g.edges.length := (h1 u nd hnd).1 e hfo
    obtain ⟨l, hl, hval⟩ := chase_ok h2 h3 e he (g.edges.length + 1) (by omega)
    exact ⟨l, hl, hval⟩

theorem get_data_of_lt {g : VecGraph D} {z : Nat} (hz : z < g.nodes.length) :
    ∃ d, g.get_data z = some d := by
  unfold VecGraph.get_data
  rw [List.getElem?_eq_getElem hz]
  exact ⟨_, rfl⟩

theorem get_data_some_imp_lt {g : VecGraph D} {z : Nat} {d : D}
    (h : g.get_data z = some d) : z < g.nodes.length := by
  unfold VecGraph.get_data at h
  by_contra hc
  rw [List.getElem?_eq_none (by omega)] at h
  cases h

theorem foldr_max_mem (f : D → Nat) :
    ∀ (l : List (NodeData D)) (nd : NodeData D), nd ∈ l →
      f (NodeData.data nd) ≤ l.foldr (fun nd acc => max (f nd.data) acc) 0 := by
  intro l
  induction l with
  | nil =>
    intro nd h
    simp at h
  | cons hd tl ih =>
    intro nd h
    rcases List.mem_cons.mp h with rfl | h
    · simp only [List.foldr_cons]
      exact le_max_left _ _
    · exact le_trans (ih nd h)
        (by simp only [List.foldr_cons]; exact le_max_right _ _)

theorem costAt_le_maxCost {g : VecGraph D} (f : D → Nat) (z : Nat) :
    costAt g f z ≤ maxCost g f := by
  unfold costAt
  cases hd : g.get_data z with
  | none => simp
  | some d =>
    unfold VecGraph.get_data at hd
    cases hz' : g.nodes[z]? with
    | none => rw [hz'] at hd; cases hd
    | some nd =>
      rw [hz'] at hd
      obtain rfl : NodeData.data nd = d := by simpa using hd
      exact foldr_max_mem f g.nodes nd (List.getElem?_mem hz')

/-- The cost the relaxation computes for a valid node is its `costAt`. -/
theorem costAt_eq_f {g : VecGraph D} {f : D → Nat} {z : Nat} {d : D}
    (h : g.get_data z = some d) : costAt g f z = f d := by
  unfold costAt
  rw [h]

/-! ## Walk lemmas -/

theorem isWalk_ne_nil {g : VecGraph D} {w : List Nat} (h : IsWalk g w) :
    w ≠ [] := by
  cases h <;> simp

theorem walkCost_single (g : VecGraph D) (f : D → Nat) (x : Nat) :
    walkCost g f [x] = 0 := by
  simp [walkCost]

theorem walkCost_cons (g : VecGraph D) (f : D → Nat) (x y : Nat)
    (rest : List Nat) :
    walkCost g f (x :: y :: rest) = costAt g f y + walkCost g f (y :: rest) := by
  simp [walkCost]

theorem walkCost_snoc (g : VecGraph D) (f : D → Nat) {p : List Nat}
    (hp : p ≠ []) (z : Nat) :
    walkCost g f (p ++ [z]) = walkCost g f p + costAt g f z := by
  unfold walkCost
  cases p with
  | nil => exact absurd rfl hp
  | cons x rest => simp

theorem isWalk_snoc {g : VecGraph D} {p : List Nat} {v z : Nat}
    (hw : IsWalk g p) (hl : p.getLast? = some v) (he : EdgeRel g v z) :
    IsWalk g (p ++ [z]) := by
  induction hw with
  | single x =>
    simp only [List.getLast?_singleton, Option.some.injEq] at hl
    subst hl
    exact .cons _ z [] he (.single z)
  | cons x y rest hxy hrest ih =>
    have hl' : (y :: rest).getLast? = some v := by
      rw [List.getLast?_cons_cons] at hl
      exact hl
    exact .cons x y (rest ++ [z]) hxy (ih hl')

theorem getLast?_snoc (p : List Nat) (z : Nat) :
    (p ++ [z]).getLast? = some z := by
  simp

theorem head?_snoc {p : List Nat} (hp : p ≠ []) (z : Nat) :
    (p ++ [z]).head? = p.head? := by
  cases p with
  | nil => exact absurd rfl hp
  | cons x rest => simp

theorem seedWalk_single {g : VecGraph D} {seeds : List Nat} {sd : Nat}
    (h : sd ∈ seeds) : SeedWalk g seeds [sd] sd :=
  ⟨.single sd, ⟨sd, rfl, h⟩, rfl⟩

theorem seedWalk_snoc {g : VecGraph D} {seeds : List Nat} {w : List Nat}
    {v z : Nat} (hw : SeedWalk g seeds w v) (he : EdgeRel g v z) :
    SeedWalk g seeds (w ++ [z]) z := by
  obtain ⟨hwalk, ⟨hd, hhd, hmem⟩, hlast⟩ := hw
  refine ⟨isWalk_snoc hwalk hlast he, ⟨hd, ?_, hmem⟩, getLast?_snoc _ _⟩
  rw [head?_snoc (isWalk_ne_nil hwalk)]
  exact hhd

theorem seedWalk_cost_snoc {g : VecGraph D} {f : D → Nat} {seeds : List Nat}
    {w : List Nat} {v : Nat} (hw : SeedWalk g seeds w v) (z : Nat) :
    walkCost g f (w ++ [z]) = walkCost g f w + costAt g f z :=
  walkCost_snoc g f (isWalk_ne_nil hw.1) z

theorem pIdx_lt_length {P : List Nat} {k : Nat} (h : k ∈ P) :
    pIdx P k < P.length := by
  induction P with
  | nil => simp at h
  | cons x rest ih =>
    by_cases hx : x = k
    · simp [pIdx, hx]
    · rcases List.mem_cons.mp h with rfl | h
      · exact absurd rfl hx
      · simp only [pIdx, if_neg hx, List.length_cons]
        exact Nat.succ_lt_succ (ih h)

theorem pIdx_append_left {P : List Nat} {k : Nat} (Q : List Nat)
    (h : k ∈ P) : pIdx (P ++ Q) k = pIdx P k := by
  induction P with
  | nil => simp at h
  | cons x rest ih =>
    by_cases hx : x = k
    · simp [pIdx, hx]
    · rcases List.mem_cons.mp h with rfl | h
      · exact absurd rfl hx
      · simp only [List.cons_append, pIdx, if_neg hx, List.append_eq]
        rw [ih h]

theorem pIdx_append_self {P : List Nat} {k : Nat} (h : k ∉ P) :
    pIdx (P ++ [k]) k = P.length := by
  induction P with
  | nil => simp [pIdx]
  | cons x rest ih =>
    have hx : x ≠ k := by
      intro hc
      exact h (hc ▸ List.mem_cons_self _ _)
    simp only [List.cons_append, pIdx, if_neg hx, List.length_cons,
      List.append_eq]
    rw [ih (fun hc => h (List.mem_cons_of_mem _ hc))]

/-! ## Map bookkeeping for the potential -/

theorem acontains_aset_iff (m : List (Nat × Nat)) (k v k' : Nat) :
    acontains (aset m k v) k' = true ↔ acontains m k' = true ∨ k' = k := by
  by_cases hk : k' = k
  · subst hk
    simp [acontains, alookup_aset_self]
  · rw [acontains, acontains, alookup_aset_ne m v hk]
    simp [hk]

theorem acontains_qpush_iff (q : List (Nat × Nat)) (k p k' : Nat) :
    acontains (qpush q k p) k' = true ↔ acontains q k' = true ∨ k' = k := by
  by_cases hk : k' = k
  · subst hk
    simp [acontains, alookup_qpush_self]
  · rw [acontains, acontains, alookup_qpush_ne q p hk]
    simp [hk]

theorem length_qpush (q : List (Nat × Nat)) (k p : Nat) :
    (qpush q k p).length =
      if acontains q k then q.length else q.length + 1 := by
  have h1 : (qpush q k p).length = ((qpush q k p).map Prod.fst).length := by
    simp
  have h2 : q.length = (q.map Prod.fst).length := by simp
  rw [h1, keys_qpush, h2]
  cases h : acontains q k <;> simp

theorem aset_eq_append {m : List (Nat × Nat)} {k : Nat}
    (h : acontains m k = false) (v : Nat) : aset m k v = m ++ [(k, v)] := by
  induction m with
  | nil => rfl
  | cons hd tl ih =>
    obtain ⟨k', v'⟩ := hd
    have hk : k' ≠ k := by
      intro hc
      subst hc
      simp [acontains, alookup] at h
    rw [aset, if_neg hk, List.cons_append]
    congr 1
    apply ih
    rw [acontains_eq_false] at h ⊢
    rw [alookup, if_neg hk] at h
    exact h

theorem costSum_aset_new {m : List (Nat × Nat)} {k : Nat}
    (h : acontains m k = false) (v : Nat) :
    costSum (aset m k v) = costSum m + v := by
  rw [aset_eq_append h]
  simp [costSum]

theorem costSum_aset_update {m : List (Nat × Nat)} {k old : Nat}
    (h : alookup m k = some old) (v : Nat) :
    costSum (aset m k v) + old = costSum m + v := by
  induction m with
  | nil => simp [alookup] at h
  | cons hd tl ih =>
    obtain ⟨k', v'⟩ := hd
    rw [alookup] at h
    by_cases hk : k' = k
    · rw [if_pos hk] at h
      obtain rfl := Option.some.inj h
      rw [aset, if_pos hk]
      simp [costSum]
      omega
    · rw [if_neg hk] at h
      rw [aset, if_neg hk]
      simp only [costSum, List.map_cons, List.sum_cons] at ih ⊢
      have := ih h
      omega

theorem countP_congr_list (l : List Nat) (p q : Nat → Bool)
    (h : ∀ i ∈ l, p i = q i) : l.countP p = l.countP q := by
  induction l with
  | nil => simp
  | cons x rest ih =>
    rw [List.countP_cons, List.countP_cons,
      h x (List.mem_cons_self _ _),
      ih (fun i hi => h i (List.mem_cons_of_mem _ hi))]

theorem countP_drop_one (l : List Nat) (p q : Nat → Bool) (z : Nat)
    (hz : z ∈ l) (hnd : l.Nodup) (hqz : q z = false) (hpz : p z = true)
    (hagree : ∀ i ∈ l, i ≠ z → q i = p i) :
    l.countP q + 1 = l.countP p := by
  induction l with
  | nil => simp at hz
  | cons x rest ih =>
    simp only [List.nodup_cons] at hnd
    rcases List.mem_cons.mp hz with heq | hz
    · subst heq
      have hrest : rest.countP q = rest.countP p := by
        apply countP_congr_list
        intro i hi
        exact hagree i (List.mem_cons_of_mem _ hi)
          (fun hc => hnd.1 (hc ▸ hi))
      rw [List.countP_cons, List.countP_cons, hqz, hpz, hrest]
      simp
    · have hx : x ≠ z := by
        intro hc
        subst hc
        exact hnd.1 hz
      rw [List.countP_cons, List.countP_cons,
        hagree x (List.mem_cons_self _ _) hx]
      have := ih hz hnd.2 (fun i hi hiz =>
        hagree i (List.mem_cons_of_mem _ hi) hiz)
      omega

theorem missing_aset_new {n : Nat} {m : List (Nat × Nat)} {k : Nat}
    (hk : k < n) (h : acontains m k = false) (v : Nat) :
    missingCount n (aset m k v) + 1 = missingCount n m := by
  unfold missingCount
  apply countP_drop_one _ _ _ k (List.mem_range.mpr hk) (List.nodup_range n)
  · have : acontains (aset m k v) k = true :=
      (acontains_aset_iff m k v k).mpr (Or.inr rfl)
    simp [this]
  · simp [h]
  · intro i _ hiz
    have h1 : acontains (aset m k v) i = acontains m i := by
      rw [acontains, acontains, alookup_aset_ne m v hiz]
    rw [h1]

theorem missing_aset_update {n : Nat} {m : List (Nat × Nat)} {k : Nat}
    (h : acontains m k = true) (v : Nat) :
    missingCount n (aset m k v) = missingCount n m := by
  unfold missingCount
  apply countP_congr_list
  intro i _
  by_cases hik : i = k
  · subst hik
    have : acontains (aset m i v) i = true :=
      (acontains_aset_iff m i v i).mpr (Or.inr rfl)
    rw [this, h]
  · rw [acontains, acontains, alookup_aset_ne m v hik]

/-- A key-distinct map whose keys come from `[0, n)` or from `seeds` has
at most `n + seeds.length` entries. -/
theorem csf_length_bound {m : List (Nat × Nat)} {n : Nat}
    {seeds : List Nat} (hnd : NoDupKeys m)
    (hval : ∀ p ∈ m, p.1 ∈ seeds ∨ p.1 < n) :
    m.length ≤ n + seeds.length := by
  classical
  have h1 : m.length = (m.map Prod.fst).length := by simp
  have h2 : (m.map Prod.fst).length = (m.map Prod.fst).toFinset.card :=
    (List.toFinset_card_of_nodup hnd).symm
  have h3 : (m.map Prod.fst).toFinset ⊆
      Finset.range n ∪ seeds.toFinset := by
    intro x hx
    rw [List.mem_toFinset] at hx
    obtain ⟨⟨k, v⟩, hkv, hfst⟩ := List.mem_map.mp hx
    simp only at hfst
    subst hfst
    rcases hval _ hkv with h | h
    · exact Finset.mem_union_right _ (List.mem_toFinset.mpr h)
    · exact Finset.mem_union_left _ (Finset.mem_range.mpr h)
  calc m.length = (m.map Prod.fst).toFinset.card := by rw [h1, h2]
    _ ≤ (Finset.range n ∪ seeds.toFinset).card := Finset.card_le_card h3
    _ ≤ (Finset.range n).card + seeds.toFinset.card := Finset.card_union_le _ _
    _ ≤ n + seeds.length := by
        have := seeds.toFinset_card_le
        simp only [Finset.card_range]
        omega

theorem acontains_of_mem {m : List (Nat × Nat)} {k v : Nat}
    (h : (k, v) ∈ m) : acontains m k = true := by
  cases hc : acontains m k with
  | true => rfl
  | false =>
    rw [acontains_eq_false, alookup_eq_none] at hc
    exact absurd h (hc v)

/-- Under the invariant the best-cost map has at most
`n + seeds.length` entries. -/
theorem inv_csf_length {g : VecGraph D} {f : D → Nat}
    {checkT : Nat → Option Bool} {seeds : List Nat} {st : DState}
    {P : List Nat} (core : InvCore g f checkT seeds st P) :
    st.costSoFar.length ≤ g.nodes.length + seeds.length := by
  apply csf_length_bound core.ndk_csf
  intro p hp
  exact core.keyed_valid p.1 (acontains_of_mem (by simpa using hp))

/-- Any recorded best cost is below the undiscovered-node weight. -/
theorem inv_val_lt_w {g : VecGraph D} {f : D → Nat}
    {checkT : Nat → Option Bool} {seeds : List Nat} {st : DState}
    {P : List Nat} (core : InvCore g f checkT seeds st P)
    {k c : Nat} (h : alookup st.costSoFar k = some c) :
    c + 2 ≤ wFor g f seeds := by
  have hmem := alookup_mem h
  have hb := core.val_bound (k, c) hmem
  have hlen := inv_csf_length core
  have : st.costSoFar.length * maxCost g f ≤
      (g.nodes.length + seeds.length) * maxCost g f :=
    Nat.mul_le_mul_right _ hlen
  unfold wFor
  simp only at hb
  omega

/-- Walking from a settled node, the walk either crosses the frontier at a
priority no higher than its cost, or it ends settled at a recorded cost no
higher than its cost.  The structure follows the classic frontier-cover
argument. -/
theorem cover_from {g : VecGraph D} {f : D → Nat}
    {checkT : Nat → Option Bool} {seeds : List Nat} {st : DState}
    {P : List Nat} (inv : LoopInv g f checkT seeds st P) :
    ∀ w, IsWalk g w → ∀ v, w.head? = some v → v ∈ P →
      ∀ z, w.getLast? = some z →
      (∃ k p, alookup st.frontier k = some p ∧
        ∃ vc, alookup st.costSoFar v = some vc ∧
          p ≤ vc + walkCost g f w) ∨
      (z ∈ P ∧ ∃ zc vc, alookup st.costSoFar z = some zc ∧
        alookup st.costSoFar v = some vc ∧ zc ≤ vc + walkCost g f w) := by
  obtain ⟨core, hrel⟩ := inv
  intro w hw
  induction hw with
  | single x =>
    intro v hv hvP z hz
    simp only [List.head?_cons, Option.some.injEq] at hv
    simp only [List.getLast?_singleton, Option.some.injEq] at hz
    rw [hv] at hz
    subst hz
    right
    obtain ⟨vc, hvc⟩ := (acontains_iff _ _).mp (core.popped_keyed v hvP)
    exact ⟨hvP, vc, vc, hvc, hvc, by simp [walkCost_single]⟩
  | cons x y rest hxy hrest ih =>
    intro v hv hvP z hz
    simp only [List.head?_cons, Option.some.injEq] at hv
    subst hv
    have hz' : (y :: rest).getLast? = some z := by
      rw [List.getLast?_cons_cons] at hz
      exact hz
    obtain ⟨l₀, hl₀, hyl₀⟩ := hxy
    obtain ⟨yc, vc, hyc, hvc, hbound⟩ := hrel _ hvP l₀ hl₀ y hyl₀
    have hykeyed : acontains st.costSoFar y = true := by
      rw [acontains_iff]
      exact ⟨yc, hyc⟩
    rcases core.keyed_split y hykeyed with hyP | hyfr
    · rcases ih y rfl hyP z hz' with
        ⟨k, p, hk, yc', hyc', hp⟩ | ⟨hzP, zc, yc', hzc, hyc', hle⟩
      · left
        refine ⟨k, p, hk, vc, hvc, ?_⟩
        rw [hyc] at hyc'
        obtain rfl := Option.some.inj hyc'
        rw [walkCost_cons]
        omega
      · right
        refine ⟨hzP, zc, vc, hzc, hvc, ?_⟩
        rw [hyc] at hyc'
        obtain rfl := Option.some.inj hyc'
        rw [walkCost_cons]
        omega
    · left
      obtain ⟨p, hp⟩ := (acontains_iff _ _).mp hyfr
      have hpsync := core.fr_sync y p hp
      rw [hyc] at hpsync
      obtain rfl : yc = p := Option.some.inj hpsync
      refine ⟨y, yc, hp, vc, hvc, ?_⟩
      rw [walkCost_cons]
      have : 0 ≤ walkCost g f (y :: rest) := Nat.zero_le _
      omega

/-- At the moment a node of minimal priority is popped, its recorded cost
is a lower bound on the cost of every walk from the seeds to it. -/
theorem pop_settles {g : VecGraph D} {f : D → Nat}
    {checkT : Nat → Option Bool} {seeds : List Nat} {st : DState}
    {P : List Nat} (inv : LoopInv g f checkT seeds st P)
    {u pu : Nat} {rest : List (Nat × Nat)}
    (hpop : popMin st.frontier = some ((u, pu), rest)) :
    alookup st.costSoFar u = some pu ∧ u ∉ P ∧
      ∀ w, SeedWalk g seeds w u → pu ≤ walkCost g f w := by
  obtain ⟨core, hrel⟩ := inv
  obtain ⟨l₁, l₂, hfr, hrest⟩ := popMin_split hpop
  have humem : (u, pu) ∈ st.frontier := by
    rw [hfr]
    exact List.mem_append_right _ (List.mem_cons_self _ _)
  have hufr : alookup st.frontier u = some pu := mem_alookup core.ndk_fr humem
  have hucsf : alookup st.costSoFar u = some pu := core.fr_sync u pu hufr
  have huP : u ∉ P := by
    intro hc
    have := core.popped_not_fr u hc
    rw [acontains_eq_false] at this
    rw [this] at hufr
    cases hufr
  refine ⟨hucsf, huP, ?_⟩
  intro w hsw
  obtain ⟨hwalk, ⟨sd, hhd, hsd⟩, hlast⟩ := hsw
  have hsdk := (core.seed_keyed sd hsd).1
  have hsdkeyed : acontains st.costSoFar sd = true := by
    rw [acontains_iff]; exact ⟨0, hsdk⟩
  rcases core.keyed_split sd hsdkeyed with hsdP | hsdfr
  · rcases cover_from ⟨core, hrel⟩ w hwalk sd hhd hsdP u hlast with
      ⟨k, p, hkp, vc, hvc, hple⟩ | ⟨huP', _⟩
    · have := popMin_min hpop (k, p) (alookup_mem hkp)
      rw [hsdk] at hvc
      obtain rfl := Option.some.inj hvc
      simp only at this
      omega
    · exact absurd huP' huP
  · obtain ⟨p, hp⟩ := (acontains_iff _ _).mp hsdfr
    have hpsync := core.fr_sync sd p hp
    rw [hsdk] at hpsync
    obtain rfl := Option.some.inj hpsync
    have := popMin_min hpop (sd, 0) (alookup_mem hp)
    simp only at this
    omega

theorem acontains_false_of_not {m : List (Nat × Nat)} {k : Nat}
    (h : ¬ acontains m k = true) : acontains m k = false := by
  cases hc : acontains m k with
  | true => exact absurd hc h
  | false => rfl

/-- One committing relaxation (fresh key or strict improvement) preserves
the core invariant, cannot touch a settled node, a seed or the expanded
node itself, and strictly decreases the potential. -/
theorem relax_commit {g : VecGraph D} {f : D → Nat}
    {checkT : Nat → Option Bool} {seeds : List Nat}
    {st : DState} {Pf : List Nat} {current next ccost nc : Nat}
    (core : InvCore g f checkT seeds st Pf)
    (hcur : current ∈ Pf)
    (hnextv : next < g.nodes.length)
    (hedge : EdgeRel g current next)
    (hccost : alookup st.costSoFar current = some ccost)
    (hnc : nc = costAt g f next + ccost)
    (hcase : alookup st.costSoFar next = none ∨ ∃ old,
      alookup st.costSoFar next = some old ∧ nc < old) :
    InvCore g f checkT seeds
      ⟨qpush st.frontier next nc, aset st.cameFrom next current,
        aset st.costSoFar next nc⟩ Pf ∧
    next ∉ Pf ∧ next ≠ current ∧ next ∉ seeds ∧
    mval g f seeds ⟨qpush st.frontier next nc, aset st.cameFrom next current,
      aset st.costSoFar next nc⟩ + 1 ≤ mval g f seeds st := by
  have hckeyed : acontains st.costSoFar current = true := by
    rw [acontains_iff]
    exact ⟨ccost, hccost⟩
  -- the relaxed node is not the expanded node
  have hnextcur : next ≠ current := by
    rintro rfl
    rcases hcase with hcase | ⟨old, hold, hlt⟩
    · rw [hccost] at hcase
      cases hcase
    · rw [hccost] at hold
      obtain rfl := Option.some.inj hold
      omega
  -- the relaxed node is not a seed
  have hnextseed : next ∉ seeds := by
    intro hc
    have := (core.seed_keyed next hc).1
    rcases hcase with hcase | ⟨old, hold, hlt⟩
    · rw [this] at hcase
      cases hcase
    · rw [this] at hold
      obtain rfl := Option.some.inj hold
      omega
  -- the relaxed node is not settled
  have hnextPf : next ∉ Pf := by
    intro hc
    rcases hcase with hcase | ⟨old, hold, hlt⟩
    · have := core.popped_keyed next hc
      rw [acontains_iff] at this
      obtain ⟨v, hv⟩ := this
      rw [hv] at hcase
      cases hcase
    · obtain ⟨wc, hwc, hwcost⟩ := core.realizing current ccost hccost
      have hwalk : SeedWalk g seeds (wc ++ [next]) next :=
        seedWalk_snoc hwc hedge
      have := core.popped_min next hc old hold (wc ++ [next]) hwalk
      rw [seedWalk_cost_snoc hwc] at this
      omega
  -- in the fresh-key case the node is not in the frontier either
  have hfrnext : acontains st.costSoFar next = false →
      acontains st.frontier next = false := by
    intro h
    apply acontains_false_of_not
    intro hc
    rw [acontains_iff] at hc
    obtain ⟨p, hp⟩ := hc
    have := core.fr_sync next p hp
    rw [acontains_eq_false] at h
    rw [this] at h
    cases h
  have hcore : InvCore g f checkT seeds
      ⟨qpush st.frontier next nc, aset st.cameFrom next current,
        aset st.costSoFar next nc⟩ Pf := by
    constructor
    · exact noDupKeys_aset core.ndk_csf next nc
    · exact noDupKeys_aset core.ndk_cf next current
    · exact noDupKeys_qpush core.ndk_fr next nc
    · exact core.ndP
    · intro k
      simp only
      rw [acontains_aset_iff, acontains_aset_iff]
      rw [core.keys_iff k]
    · intro k p hp
      simp only at hp ⊢
      by_cases hk : k = next
      · subst hk
        rw [alookup_qpush_self] at hp
        obtain rfl := Option.some.inj hp
        exact alookup_aset_self _ _ _
      · rw [alookup_qpush_ne _ _ hk] at hp
        rw [alookup_aset_ne _ _ hk]
        exact core.fr_sync k p hp
    · intro u hu
      simp only
      rw [acontains_aset_iff]
      exact Or.inl (core.popped_keyed u hu)
    · intro u hu
      simp only
      apply acontains_false_of_not
      intro hc
      rw [acontains_qpush_iff] at hc
      rcases hc with hc | hc
      · have := core.popped_not_fr u hu
        rw [this] at hc
        cases hc
      · exact hnextPf (hc ▸ hu)
    · intro k hk
      simp only at hk ⊢
      rw [acontains_aset_iff] at hk
      rcases hk with hk | hk
      · rcases core.keyed_split k hk with h | h
        · exact Or.inl h
        · right
          rw [acontains_qpush_iff]
          exact Or.inl h
      · right
        rw [acontains_qpush_iff]
        exact Or.inr hk
    · intro k hk
      simp only at hk
      rw [acontains_aset_iff] at hk
      rcases hk with hk | hk
      · exact core.keyed_valid k hk
      · subst hk
        exact Or.inr hnextv
    · intro sd hsd
      have hne : sd ≠ next := fun hc => hnextseed (hc ▸ hsd)
      simp only
      rw [alookup_aset_ne _ _ hne, alookup_aset_ne _ _ hne]
      exact core.seed_keyed sd hsd
    · intro k hk hkseed
      simp only at hk ⊢
      by_cases hkn : k = next
      · subst hkn
        refine ⟨current, ccost, nc, alookup_aset_self _ _ _, hcur, hedge,
          ?_, alookup_aset_self _ _ _, ?_, ?_⟩
        · rw [alookup_aset_ne _ _ hnextcur.symm]
          exact hccost
        · omega
        · intro hc
          exact absurd hc hnextPf
      · rw [acontains_aset_iff] at hk
        rcases hk with hk | hk
        · obtain ⟨par, pc, kc, hpar, hparP, hparE, hpc, hkc, hble, hidx⟩ :=
            core.parent_spec k hk hkseed
        -- the parent's cost can only have decreased
          by_cases hpn : par = next
          · subst hpn
            rcases hcase with hcase | ⟨old, hold, hlt⟩
            · rw [hpc] at hcase
              cases hcase
            · rw [hpc] at hold
              obtain rfl := Option.some.inj hold
              refine ⟨par, nc, kc, ?_, hparP, hparE,
                alookup_aset_self _ _ _, ?_, ?_, hidx⟩
              · rw [alookup_aset_ne _ _ hkn]
                exact hpar
              · rw [alookup_aset_ne _ _ hkn]
                exact hkc
              · omega
          · refine ⟨par, pc, kc, ?_, hparP, hparE, ?_, ?_, hble, hidx⟩
            · rw [alookup_aset_ne _ _ hkn]
              exact hpar
            · rw [alookup_aset_ne _ _ hpn]
              exact hpc
            · rw [alookup_aset_ne _ _ hkn]
              exact hkc
        · exact absurd hk hkn
    · intro u hu c hc
      simp only at hc
      have hun : u ≠ next := fun heq => hnextPf (heq ▸ hu)
      rw [alookup_aset_ne _ _ hun] at hc
      exact core.popped_min u hu c hc
    · intro k c hk
      simp only at hk
      by_cases hkn : k = next
      · subst hkn
        rw [alookup_aset_self] at hk
        obtain rfl := Option.some.inj hk
        obtain ⟨wc, hwc, hwcost⟩ := core.realizing current ccost hccost
        refine ⟨wc ++ [k], seedWalk_snoc hwc hedge, ?_⟩
        rw [seedWalk_cost_snoc hwc]
        omega
      · rw [alookup_aset_ne _ _ hkn] at hk
        exact core.realizing k c hk
    · intro k hk hmatch
      simp only at hk ⊢
      rw [acontains_aset_iff] at hk
      rw [acontains_qpush_iff]
      rcases hk with hk | hk
      · exact Or.inl (core.match_in_fr k hk hmatch)
      · exact Or.inr hk
    · exact core.popped_nomatch
    · intro p hp
      simp only at hp ⊢
      have hccb := core.val_bound (current, ccost) (alookup_mem hccost)
      simp only at hccb
      have hcAt := costAt_le_maxCost (g := g) f next
      rcases hcase with hcase | ⟨old, hold, hlt⟩
      · have hlen := length_aset st.costSoFar next nc
        rw [(acontains_eq_false _ _).mpr hcase] at hlen
        simp only [Bool.false_eq_true, if_neg, if_false] at hlen
        have hnc' : nc ≤ (st.costSoFar.length + 1) * maxCost g f := by
          rw [Nat.succ_mul]
          omega
        rw [hlen]
        refine values_aset_le ?_ hnc' p hp
        intro q hq
        have := core.val_bound q hq
        rw [Nat.succ_mul]
        omega
      · have hlen := length_aset st.costSoFar next nc
        have hcont : acontains st.costSoFar next = true := by
          rw [acontains_iff]
          exact ⟨old, hold⟩
        rw [hcont] at hlen
        simp only [if_pos rfl, if_true] at hlen
        have holdb := core.val_bound (next, old) (alookup_mem hold)
        simp only at holdb
        rw [hlen]
        exact values_aset_le core.val_bound (by omega) p hp
  refine ⟨hcore, hnextPf, hnextcur, hnextseed, ?_⟩
  -- the potential strictly decreases
  have hncw : nc + 2 ≤ wFor g f seeds :=
    inv_val_lt_w hcore (by simpa using alookup_aset_self st.costSoFar next nc)
  unfold mval
  simp only
  rcases hcase with hcase | ⟨old, hold, hlt⟩
  · -- fresh key: one undiscovered node is paid for
    have hfr := hfrnext ((acontains_eq_false _ _).mpr hcase)
    have hl1 := length_qpush st.frontier next nc
    rw [hfr] at hl1
    simp only [Bool.false_eq_true, if_neg, if_false] at hl1
    have hl2 := costSum_aset_new ((acontains_eq_false _ _).mpr hcase) nc
    have hl3 := missing_aset_new hnextv ((acontains_eq_false _ _).mpr hcase) nc
    rw [hl1, hl2]
    have : wFor g f seeds * missingCount g.nodes.length
        (aset st.costSoFar next nc) + wFor g f seeds =
        wFor g f seeds * missingCount g.nodes.length st.costSoFar := by
      rw [← hl3]
      ring
    omega
  · -- strict improvement: the recorded cost drops
    have hcont : acontains st.costSoFar next = true := by
      rw [acontains_iff]
      exact ⟨old, hold⟩
    have hinfr : acontains st.frontier next = true := by
      rcases core.keyed_split next hcont with h | h
      · exact absurd h hnextPf
      · exact h
    have hl1 := length_qpush st.frontier next nc
    rw [hinfr] at hl1
    simp only [if_pos rfl, if_true] at hl1
    have hl2 := costSum_aset_update hold nc
    have hl3 := missing_aset_update (n := g.nodes.length) hcont nc
    rw [hl1, hl3]
    omega

/-- Specification of one step of the relaxation fold. -/
theorem relaxOne_spec {g : VecGraph D} {f : D → Nat}
    {checkT : Nat → Option Bool} {seeds : List Nat}
    (hWF : WellFormed g) (hseeds : ∀ sd ∈ seeds, sd < g.nodes.length)
    {current : Nat} {ns done todo : List Nat} {next : Nat} {st : DState}
    {Pf : List Nat}
    (core : InvCore g f checkT seeds st Pf)
    (hrelOld : ∀ u ∈ Pf, u ≠ current → ∀ l, g.get_neighbors u = some l →
      Relaxed g f st.costSoFar u l)
    (hrelCur : Relaxed g f st.costSoFar current done)
    (hcur : current ∈ Pf)
    (hcurNs : g.get_neighbors current = some ns)
    (hsplit : ns = done ++ next :: todo) :
    ∃ st', relaxOne g f current st next = some st' ∧
      InvCore g f checkT seeds st' Pf ∧
      (∀ u ∈ Pf, u ≠ current → ∀ l, g.get_neighbors u = some l →
        Relaxed g f st'.costSoFar u l) ∧
      Relaxed g f st'.costSoFar current (done ++ [next]) ∧
      mval g f seeds st' ≤ mval g f seeds st := by
  have hcv : current < g.nodes.length := by
    rcases core.keyed_valid current (core.popped_keyed current hcur) with h | h
    · exact hseeds current h
    · exact h
  have hnextmem : next ∈ ns := by
    rw [hsplit]
    exact List.mem_append_right _ (List.mem_cons_self _ _)
  have hnextv : next < g.nodes.length := by
    obtain ⟨l, hl, hval⟩ := wf_get_neighbors hWF hcv
    rw [hcurNs] at hl
    obtain rfl := Option.some.inj hl
    exact hval next hnextmem
  have hedge : EdgeRel g current next := ⟨ns, hcurNs, hnextmem⟩
  obtain ⟨nd, hnd⟩ := get_data_of_lt (g := g) hnextv
  obtain ⟨ccost, hccost⟩ :=
    (acontains_iff _ _).mp (core.popped_keyed current hcur)
  have hcostAt : costAt g f next = f nd := costAt_eq_f hnd
  unfold relaxOne
  rw [hnd, hccost]
  cases hnext : alookup st.costSoFar next with
  | none =>
    obtain ⟨core', hnPf, hncur, hnseed, hmval⟩ :=
      relax_commit core hcur hnextv hedge hccost
        (show f nd + ccost = costAt g f next + ccost by omega) (Or.inl hnext)
    refine ⟨_, rfl, core', ?_, ?_, by omega⟩
    · intro u hu hucur l hl z hz
      obtain ⟨zc, uc, hzc, huc, hb⟩ := hrelOld u hu hucur l hl z hz
      have hzn : z ≠ next := by
        rintro rfl
        rw [hzc] at hnext
        cases hnext
      have hun : u ≠ next := by
        rintro rfl
        exact hnPf hu
      refine ⟨zc, uc, ?_, ?_, hb⟩
      · simpa using (alookup_aset_ne st.costSoFar (f nd + ccost) hzn).symm ▸ hzc
      · simpa using (alookup_aset_ne st.costSoFar (f nd + ccost) hun).symm ▸ huc
    · intro z hz
      rcases List.mem_append.mp hz with hz | hz
      · obtain ⟨zc, uc, hzc, huc, hb⟩ := hrelCur z hz
        have hzn : z ≠ next := by
          rintro rfl
          rw [hzc] at hnext
          cases hnext
        refine ⟨zc, uc, ?_, ?_, hb⟩
        · simpa using (alookup_aset_ne st.costSoFar (f nd + ccost) hzn).symm ▸ hzc
        · simpa using
            (alookup_aset_ne st.costSoFar (f nd + ccost) hncur.symm).symm ▸ huc
      · simp only [List.mem_singleton] at hz
        subst hz
      -- the freshly recorded cost is exactly ccost + costAt z
        refine ⟨f nd + ccost, ccost, by simpa using alookup_aset_self _ _ _,
          ?_, by omega⟩
        simpa using
          (alookup_aset_ne st.costSoFar (f nd + ccost) hncur.symm).symm ▸ hccost
  | some old =>
    dsimp only
    by_cases hlt : f nd + ccost < old
    · rw [if_pos hlt]
      obtain ⟨core', hnPf, hncur, hnseed, hmval⟩ :=
        relax_commit core hcur hnextv hedge hccost
          (show f nd + ccost = costAt g f next + ccost by omega)
          (Or.inr ⟨old, hnext, hlt⟩)
      refine ⟨_, rfl, core', ?_, ?_, by omega⟩
      · intro u hu hucur l hl z hz
        obtain ⟨zc, uc, hzc, huc, hb⟩ := hrelOld u hu hucur l hl z hz
        have hun : u ≠ next := by
          rintro rfl
          exact hnPf hu
        by_cases hzn : z = next
        · subst hzn
          rw [hnext] at hzc
          obtain rfl := Option.some.inj hzc
          refine ⟨f nd + ccost, uc, by simpa using alookup_aset_self _ _ _,
            ?_, by omega⟩
          simpa using (alookup_aset_ne st.costSoFar (f nd + ccost) hun).symm ▸ huc
        · refine ⟨zc, uc, ?_, ?_, hb⟩
          · simpa using (alookup_aset_ne st.costSoFar (f nd + ccost) hzn).symm ▸ hzc
          · simpa using (alookup_aset_ne st.costSoFar (f nd + ccost) hun).symm ▸ huc
      · intro z hz
        rcases List.mem_append.mp hz with hz | hz
        · obtain ⟨zc, uc, hzc, huc, hb⟩ := hrelCur z hz
          by_cases hzn : z = next
          · subst hzn
            rw [hnext] at hzc
            obtain rfl := Option.some.inj hzc
            rw [hccost] at huc
            obtain rfl := Option.some.inj huc
            refine ⟨f nd + ccost, ccost,
              by simpa using alookup_aset_self _ _ _, ?_, by omega⟩
            simpa using
              (alookup_aset_ne st.costSoFar (f nd + ccost) hncur.symm).symm ▸ hccost
          · refine ⟨zc, uc, ?_, ?_, hb⟩
            · simpa using
                (alookup_aset_ne st.costSoFar (f nd + ccost) hzn).symm ▸ hzc
            · simpa using
                (alookup_aset_ne st.costSoFar (f nd + ccost) hncur.symm).symm ▸ huc
        · simp only [List.mem_singleton] at hz
          subst hz
          refine ⟨f nd + ccost, ccost, by simpa using alookup_aset_self _ _ _,
            ?_, by omega⟩
          simpa using
            (alookup_aset_ne st.costSoFar (f nd + ccost) hncur.symm).symm ▸ hccost
    · rw [if_neg hlt]
      refine ⟨st, rfl, core, hrelOld, ?_, le_refl _⟩
      intro z hz
      rcases List.mem_append.mp hz with hz | hz
      · exact hrelCur z hz
      · simp only [List.mem_singleton] at hz
        subst hz
        exact ⟨old, ccost, hnext, hccost, by omega⟩

/-- Specification of the whole relaxation fold over a neighbor suffix. -/
theorem relaxAll_spec {g : VecGraph D} {f : D → Nat}
    {checkT : Nat → Option Bool} {seeds : List Nat}
    (hWF : WellFormed g) (hseeds : ∀ sd ∈ seeds, sd < g.nodes.length)
    {current : Nat} {ns : List Nat} {Pf : List Nat} :
    ∀ (todo done : List Nat) (st : DState),
      InvCore g f checkT seeds st Pf →
      (∀ u ∈ Pf, u ≠ current → ∀ l, g.get_neighbors u = some l →
        Relaxed g f st.costSoFar u l) →
      Relaxed g f st.costSoFar current done →
      current ∈ Pf →
      g.get_neighbors current = some ns →
      ns = done ++ todo →
      ∃ st', relaxAll g f current todo st = some st' ∧
        InvCore g f checkT seeds st' Pf ∧
        (∀ u ∈ Pf, u ≠ current → ∀ l, g.get_neighbors u = some l →
          Relaxed g f st'.costSoFar u l) ∧
        Relaxed g f st'.costSoFar current ns ∧
        mval g f seeds st' ≤ mval g f seeds st := by
  intro todo
  induction todo with
  | nil =>
    intro done st core hrelOld hrelCur hcur hcurNs hsplit
    refine ⟨st, rfl, core, hrelOld, ?_, le_refl _⟩
    rw [hsplit, List.append_nil]
    exact hrelCur
  | cons next rest ih =>
    intro done st core hrelOld hrelCur hcur hcurNs hsplit
    obtain ⟨st1, hone, core1, hrelOld1, hrelCur1, hmval1⟩ :=
      relaxOne_spec hWF hseeds core hrelOld hrelCur hcur hcurNs hsplit
    obtain ⟨st', hall, core', hrelOld', hrelCur', hmval'⟩ :=
      ih (done ++ [next]) st1 core1 hrelOld1 hrelCur1 hcur hcurNs
        (by rw [hsplit]; simp)
    refine ⟨st', ?_, core', hrelOld', hrelCur', le_trans hmval' hmval1⟩
    unfold relaxAll
    rw [hone]
    exact hall

/-- Popping a minimal node that fails the target test yields a state
satisfying the core invariant with the node appended to the pop list. -/
theorem pop_step {g : VecGraph D} {f : D → Nat}
    {checkT : Nat → Option Bool} {seeds : List Nat} {st : DState}
    {P : List Nat} (inv : LoopInv g f checkT seeds st P)
    {current pu : Nat} {rest : List (Nat × Nat)}
    (hpop : popMin st.frontier = some ((current, pu), rest))
    (hchk : checkT current = some false) :
    InvCore g f checkT seeds ⟨rest, st.cameFrom, st.costSoFar⟩
      (P ++ [current]) ∧
    (∀ u ∈ P ++ [current], u ≠ current → ∀ l, g.get_neighbors u = some l →
      Relaxed g f st.costSoFar u l) ∧
    current ∈ P ++ [current] ∧
    mval g f seeds ⟨rest, st.cameFrom, st.costSoFar⟩ + 1 =
      mval g f seeds st := by
  obtain ⟨hcsf, hcP, hmin⟩ := pop_settles inv hpop
  obtain ⟨core, hrel⟩ := inv
  obtain ⟨l₁, l₂, hfr, hrest⟩ := popMin_split hpop
  have hmemrest : ∀ e, e ∈ rest → e ∈ st.frontier := by
    intro e he
    rw [hrest] at he
    rw [hfr]
    rcases List.mem_append.mp he with he | he
    · exact List.mem_append_left _ he
    · exact List.mem_append_right _ (List.mem_cons_of_mem _ he)
  have hndkrest : NoDupKeys rest := by
    have hsub : List.Sublist (rest.map Prod.fst)
        (st.frontier.map Prod.fst) := by
      rw [hrest, hfr]
      simp only [List.map_append, List.map_cons]
      exact (List.append_sublist_append_left _).mpr
        (List.sublist_cons_self _ _)
    exact List.Nodup.sublist hsub core.ndk_fr
  have hcurrest : acontains rest current = false := by
    apply acontains_false_of_not
    intro hc
    rw [acontains_iff] at hc
    obtain ⟨p, hp⟩ := hc
    have hmem := alookup_mem hp
    have : current ∈ (l₁ ++ l₂).map Prod.fst := by
      rw [← hrest]
      exact List.mem_map.mpr ⟨(current, p), hmem, rfl⟩
    have hnd := core.ndk_fr
    rw [hfr] at hnd
    unfold NoDupKeys at hnd
    simp only [List.map_append, List.map_cons] at hnd
    rw [List.nodup_append] at hnd
    obtain ⟨hnd1, hnd2, hdisj⟩ := hnd
    rw [List.nodup_cons] at hnd2
    rw [List.map_append] at this
    rcases List.mem_append.mp this with h | h
    · exact hdisj h (List.mem_cons_self _ _)
    · exact hnd2.1 h
  have hlen : st.frontier.length = rest.length + 1 := by
    rw [hfr, hrest]
    simp only [List.length_append, List.length_cons]
    omega
  have hrestlook : ∀ k p, alookup rest k = some p →
      alookup st.frontier k = some p := by
    intro k p hp
    exact mem_alookup core.ndk_fr (hmemrest _ (alookup_mem hp))
  refine ⟨?_, ?_, List.mem_append_right _ (List.mem_cons_self _ _), ?_⟩
  · constructor
    · exact core.ndk_csf
    · exact core.ndk_cf
    · exact hndkrest
    · rw [List.nodup_append]
      exact ⟨core.ndP, List.nodup_singleton _, by
        intro a ha hb
        simp only [List.mem_singleton] at hb
        subst hb
        exact hcP ha⟩
    · exact core.keys_iff
    · intro k p hp
      exact core.fr_sync k p (hrestlook k p hp)
    · intro u hu
      rcases List.mem_append.mp hu with hu | hu
      · exact core.popped_keyed u hu
      · simp only [List.mem_singleton] at hu
        subst hu
        rw [acontains_iff]
        exact ⟨pu, hcsf⟩
    · intro u hu
      rcases List.mem_append.mp hu with hu | hu
      · apply acontains_false_of_not
        intro hc
        rw [acontains_iff] at hc
        obtain ⟨p, hp⟩ := hc
        have := acontains_of_mem (hmemrest _ (alookup_mem hp))
        have h2 := core.popped_not_fr u hu
        rw [this] at h2
        cases h2
      · simp only [List.mem_singleton] at hu
        subst hu
        exact hcurrest
    · intro k hk
      rcases core.keyed_split k hk with h | h
      · exact Or.inl (List.mem_append_left _ h)
      · rw [acontains_iff] at h
        obtain ⟨p, hp⟩ := h
        have hmem := alookup_mem hp
        rw [hfr] at hmem
        rcases List.mem_append.mp hmem with hm | hm
        · right
          rw [acontains_iff]
          refine ⟨p, mem_alookup hndkrest ?_⟩
          rw [hrest]
          exact List.mem_append_left _ hm
        · rcases List.mem_cons.mp hm with hm | hm
          · left
            have : k = current := congrArg Prod.fst hm
            subst this
            exact List.mem_append_right _ (List.mem_cons_self _ _)
          · right
            rw [acontains_iff]
            refine ⟨p, mem_alookup hndkrest ?_⟩
            rw [hrest]
            exact List.mem_append_right _ hm
    · exact core.keyed_valid
    · exact core.seed_keyed
    · intro k hk hks
      obtain ⟨par, pc, kc, hpar, hparP, hparE, hpc, hkc, hble, hidx⟩ :=
        core.parent_spec k hk hks
      refine ⟨par, pc, kc, hpar, List.mem_append_left _ hparP, hparE,
        hpc, hkc, hble, ?_⟩
      intro hkP'
      rcases List.mem_append.mp hkP' with hkP | hkP
      · rw [pIdx_append_left _ hparP, pIdx_append_left _ hkP]
        exact hidx hkP
      · simp only [List.mem_singleton] at hkP
        subst hkP
        rw [pIdx_append_left _ hparP, pIdx_append_self hcP]
        exact pIdx_lt_length hparP
    · intro u hu c hc
      rcases List.mem_append.mp hu with hu | hu
      · exact core.popped_min u hu c hc
      · simp only [List.mem_singleton] at hu
        subst hu
        rw [hcsf] at hc
        obtain rfl := Option.some.inj hc
        exact hmin
    · exact core.realizing
    · intro k hk hm
      have := core.match_in_fr k hk hm
      rw [acontains_iff] at this
      obtain ⟨p, hp⟩ := this
      have hmem := alookup_mem hp
      have hkc : k ≠ current := by
        rintro rfl
        rw [hchk] at hm
        cases hm
      rw [acontains_iff]
      refine ⟨p, mem_alookup hndkrest ?_⟩
      rw [hfr] at hmem
      rw [hrest]
      rcases List.mem_append.mp hmem with hm' | hm'
      · exact List.mem_append_left _ hm'
      · rcases List.mem_cons.mp hm' with hm' | hm'
        · exact absurd (congrArg Prod.fst hm') hkc
        · exact List.mem_append_right _ hm'
    · intro u hu
      rcases List.mem_append.mp hu with hu | hu
      · exact core.popped_nomatch u hu
      · simp only [List.mem_singleton] at hu
        subst hu
        exact hchk
    · exact core.val_bound
  · intro u hu hucur l hl
    rcases List.mem_append.mp hu with hu | hu
    · exact hrel u hu l hl
    · simp only [List.mem_singleton] at hu
      exact absurd hu hucur
  · unfold mval
    simp only
    omega

/-- A popped node is a valid handle. -/
theorem pop_valid {g : VecGraph D} {f : D → Nat}
    {checkT : Nat → Option Bool} {seeds : List Nat} {st : DState}
    {P : List Nat} (inv : LoopInv g f checkT seeds st P)
    (hseeds : ∀ sd ∈ seeds, sd < g.nodes.length)
    {current pu : Nat} {rest : List (Nat × Nat)}
    (hpop : popMin st.frontier = some ((current, pu), rest)) :
    current < g.nodes.length := by
  obtain ⟨hcsf, _, _⟩ := pop_settles inv hpop
  have : acontains st.costSoFar current = true := by
    rw [acontains_iff]
    exact ⟨pu, hcsf⟩
  rcases inv.1.keyed_valid current this with h | h
  · exact hseeds current h
  · exact h

/-- Master lemma for the search loop: with the invariant established and
fuel above the potential, the loop terminates normally; the final state
still satisfies the invariant, a `none` verdict comes with an exhausted
frontier, and a found target carries a recorded cost that lower-bounds
every walk from the seeds to it. -/
theorem loopGo_master {g : VecGraph D} {f : D → Nat}
    {checkT : Nat → Option Bool} {seeds : List Nat}
    (hWF : WellFormed g) (hseeds : ∀ sd ∈ seeds, sd < g.nodes.length)
    (hchk : ∀ k, k < g.nodes.length → checkT k ≠ none) :
    ∀ (fuel : Nat) (st : DState) (P : List Nat),
      LoopInv g f checkT seeds st P →
      mval g f seeds st < fuel →
      ∃ st' P' found, loopGo g f checkT fuel st = .done st'.cameFrom found ∧
        LoopInv g f checkT seeds st' P' ∧
        (found = none → st'.frontier = []) ∧
        (∀ u, found = some u → checkT u = some true ∧
          ∃ c, alookup st'.costSoFar u = some c ∧
            acontains st'.cameFrom u = true ∧
            ∀ w, SeedWalk g seeds w u → c ≤ walkCost g f w) := by
  intro fuel
  induction fuel with
  | zero =>
    intro st P inv hm
    omega
  | succ fl ih =>
    intro st P inv hm
    rw [loopGo]
    cases hpop : popMin st.frontier with
    | none =>
      refine ⟨st, P, none, rfl, inv, fun _ => popMin_eq_none.mp hpop, ?_⟩
      intro u hu
      cases hu
    | some pr =>
      obtain ⟨⟨current, pu⟩, rest⟩ := pr
      dsimp only
      have hcv : current < g.nodes.length := pop_valid inv hseeds hpop
      obtain ⟨hcsf, hcP, hmin⟩ := pop_settles inv hpop
      cases hchkc : checkT current with
      | none => exact absurd hchkc (hchk current hcv)
      | some b =>
        cases b with
        | true =>
          refine ⟨st, P, some current, rfl, inv, ?_, ?_⟩
          · intro h
            cases h
          · intro u hu
            obtain rfl := Option.some.inj hu
            refine ⟨hchkc, pu, hcsf, ?_, ?_⟩
            · rw [← inv.1.keys_iff]
              rw [acontains_iff]
              exact ⟨pu, hcsf⟩
            · intro w hw
              exact hmin w hw
        | false =>
          obtain ⟨hcore, hrelOld, hcur, hmv⟩ := pop_step inv hpop hchkc
          obtain ⟨ns, hcurNs, hnsval⟩ := wf_get_neighbors hWF hcv
          rw [hcurNs]
          have hrelCurNil :
              Relaxed g f st.costSoFar current ([] : List Nat) := by
            intro z hz
            cases hz
          obtain ⟨st'', hall, core'', hrelOld'', hrelCur'', hmval''⟩ :=
            relaxAll_spec hWF hseeds ns [] ⟨rest, st.cameFrom, st.costSoFar⟩
              hcore hrelOld hrelCurNil hcur hcurNs (by simp)
          dsimp only
          rw [hall]
          have hallrel : AllRelaxed g f st''.costSoFar (P ++ [current]) := by
            intro u hu l hl
            by_cases huc : u = current
            · subst huc
              rw [hcurNs] at hl
              obtain rfl := Option.some.inj hl
              exact hrelCur''
            · exact hrelOld'' u hu huc l hl
          exact ih st'' (P ++ [current]) ⟨core'', hallrel⟩ (by omega)


/-! ## Seeding the search -/

/-- Under the arena invariant each node records its own position, so the
index list of the arena is exactly `range n`. -/
theorem nodes_map_index {g : VecGraph D} (h : edgesOkB g = true) :
    g.nodes.map NodeData.index = List.range g.nodes.length := by
  have hidx := (edgesOkB_spec h).1
  apply List.ext_getElem
  · simp
  · intro i h1 h2
    simp only [List.getElem_map, List.getElem_range]
    have hl : i < g.nodes.length := by simpa using h1
    exact (hidx i g.nodes[i] (List.getElem?_eq_getElem hl)).2

/-- `find_nodes` yields distinct handles. -/
theorem find_nodes_nodup {g : VecGraph D} (h : edgesOkB g = true)
    (p : D → Bool) : (g.find_nodes p).Nodup := by
  unfold VecGraph.find_nodes
  have hsub : (g.nodes.filter (fun nd => p nd.data)).map NodeData.index
      |>.Sublist (g.nodes.map NodeData.index) :=
    (List.filter_sublist _).map _
  rw [nodes_map_index h] at hsub
  exact hsub.nodup (List.nodup_range _)

/-- `find_nodes` yields valid handles. -/
theorem find_nodes_valid {g : VecGraph D} (h : edgesOkB g = true)
    (p : D → Bool) : ∀ s ∈ g.find_nodes p, s < g.nodes.length := by
  intro s hs
  unfold VecGraph.find_nodes at hs
  have hsub : (g.nodes.filter (fun nd => p nd.data)).map NodeData.index
      |>.Sublist (g.nodes.map NodeData.index) :=
    (List.filter_sublist _).map _
  rw [nodes_map_index h] at hsub
  have := hsub.subset hs
  simpa using this

/-- Membership in `find_nodes` is payload satisfaction. -/
theorem find_nodes_mem {g : VecGraph D} (h : edgesOkB g = true)
    (p : D → Bool) (s : Nat) :
    s ∈ g.find_nodes p ↔ ∃ d, g.get_data s = some d ∧ p d = true := by
  have hidx := (edgesOkB_spec h).1
  unfold VecGraph.find_nodes
  constructor
  · intro hs
    obtain ⟨nd, hnd, hsnd⟩ := List.mem_map.mp hs
    rw [List.mem_filter] at hnd
    obtain ⟨hmem, hp⟩ := hnd
    obtain ⟨i, hi, hgi⟩ := List.mem_iff_getElem.mp hmem
    have hq : g.nodes[i]? = some nd := by
      rw [List.getElem?_eq_getElem hi, hgi]
    have : nd.index = i := (hidx i nd hq).2
    have hsi : s = i := by rw [← hsnd, this]
    subst hsi
    exact ⟨nd.data, by simp [VecGraph.get_data, hq], hp⟩
  · rintro ⟨d, hd, hp⟩
    unfold VecGraph.get_data at hd
    match hq : g.nodes[s]? with
    | none => rw [hq] at hd; cases hd
    | some nd =>
      rw [hq] at hd
      obtain rfl : nd.data = d := by simpa using hd
      apply List.mem_map.mpr
      refine ⟨nd, List.mem_filter.mpr ⟨List.getElem?_mem hq, hp⟩, ?_⟩
      exact (hidx s nd hq).2

/-- Lookup on a self-keyed seed map. -/
theorem alookup_map_self (c : Nat → Nat) {seeds : List Nat} {sd : Nat}
    (h : sd ∈ seeds) :
    alookup (seeds.map (fun i => (i, c i))) sd = some (c sd) := by
  induction seeds with
  | nil => cases h
  | cons x rest ih =>
    by_cases hx : x = sd
    · subst hx
      simp [alookup]
    · rcases List.mem_cons.mp h with rfl | h
      · exact absurd rfl hx
      · simp only [List.map_cons, alookup, if_neg hx]
        exact ih h

/-- Key membership on a self-keyed seed map. -/
theorem acontains_map_self (c : Nat → Nat) (seeds : List Nat) (k : Nat) :
    acontains (seeds.map (fun i => (i, c i))) k = true ↔ k ∈ seeds := by
  constructor
  · intro h
    rw [acontains_iff] at h
    obtain ⟨v, hv⟩ := h
    have := alookup_mem hv
    obtain ⟨i, hi, hik⟩ := List.mem_map.mp this
    have hik2 : i = k := congrArg Prod.fst hik
    exact hik2 ▸ hi
  · intro h
    rw [acontains_iff]
    exact ⟨c k, alookup_map_self c h⟩

/-- Unique keys of a self-keyed seed map over distinct seeds. -/
theorem noDupKeys_map_self (c : Nat → Nat) {seeds : List Nat}
    (h : seeds.Nodup) : NoDupKeys (seeds.map (fun i => (i, c i))) := by
  unfold NoDupKeys
  rw [List.map_map]
  have hc : (Prod.fst ∘ fun i => ((i, c i) : Nat × Nat)) = id := rfl
  rw [hc, List.map_id]
  exact h

/-- The loop invariant holds at the seeded entry state (ghost pop list
empty). -/
theorem init_inv {g : VecGraph D} {f : D → Nat}
    {checkT : Nat → Option Bool} {seeds : List Nat}
    (hnd : seeds.Nodup) :
    LoopInv g f checkT seeds
      ⟨seeds.map (fun i => (i, 0)), seeds.map (fun i => (i, i)),
        seeds.map (fun i => (i, 0))⟩ [] := by
  constructor
  · constructor
    · exact noDupKeys_map_self _ hnd
    · exact noDupKeys_map_self _ hnd
    · exact noDupKeys_map_self _ hnd
    · exact List.nodup_nil
    · intro k
      rw [acontains_map_self, acontains_map_self]
    · intro k p hp
      have hk := alookup_mem hp
      obtain ⟨i, hi, hik⟩ := List.mem_map.mp hk
      have : i = k := congrArg Prod.fst hik
      subst this
      have : (0 : Nat) = p := congrArg Prod.snd hik
      subst this
      exact alookup_map_self _ hi
    · intro u hu; cases hu
    · intro u hu; cases hu
    · intro k hk
      exact Or.inr ((acontains_map_self _ _ _).mpr
        ((acontains_map_self _ _ _).mp hk))
    · intro k hk
      exact Or.inl ((acontains_map_self _ _ _).mp hk)
    · intro sd hsd
      exact ⟨alookup_map_self _ hsd, alookup_map_self _ hsd⟩
    · intro k hk hks
      exact absurd ((acontains_map_self _ _ _).mp hk) hks
    · intro u hu; cases hu
    · intro k c hc
      have hk := alookup_mem hc
      obtain ⟨i, hi, hik⟩ := List.mem_map.mp hk
      have hik2 : i = k := congrArg Prod.fst hik
      have hc2 : (0 : Nat) = c := congrArg Prod.snd hik
      subst hik2
      subst hc2
      exact ⟨[i], seedWalk_single hi, by simp [walkCost]⟩
    · intro k hk _
      exact (acontains_map_self _ _ _).mpr ((acontains_map_self _ _ _).mp hk)
    · intro u hu; cases hu
    · intro p hp
      obtain ⟨i, _, hik⟩ := List.mem_map.mp hp
      have : (0 : Nat) = p.2 := congrArg Prod.snd hik
      omega
  · intro u hu; cases hu

/-- The entry-point fuel strictly dominates the entry potential. -/
theorem init_mval_lt {g : VecGraph D} {f : D → Nat} (seeds : List Nat) :
    mval g f seeds
      ⟨seeds.map (fun i => (i, 0)), seeds.map (fun i => (i, i)),
        seeds.map (fun i => (i, 0))⟩ < fuelFor g f seeds := by
  unfold mval fuelFor costSum wFor
  simp only [List.length_map, List.map_map]
  have hcs : ((seeds.map (fun i => (i, 0) : Nat → Nat × Nat)).map
      Prod.snd).sum = 0 := by
    rw [List.map_map]
    induction seeds with
    | nil => simp
    | cons x rest ih => simpa using ih
  have hmc : missingCount g.nodes.length
      (seeds.map (fun i => (i, 0))) ≤ g.nodes.length := by
    unfold missingCount
    calc (List.range g.nodes.length).countP _
        ≤ (List.range g.nodes.length).length := List.countP_le_length _
      _ = g.nodes.length := List.length_range _
  have := Nat.mul_le_mul_left
    ((g.nodes.length + seeds.length) * maxCost g f + 2) hmc
  simp only [List.map_map] at hcs
  omega

/-! ## Path reconstruction -/

theorem rank_le_length (P : List Nat) (u : Nat) : rank P u ≤ P.length := by
  unfold rank
  by_cases h : u ∈ P
  · rw [if_pos h]
    exact Nat.le_of_lt (pIdx_lt_length h)
  · rw [if_neg h]

theorem acontains_imp_key_mem {m : List (Nat × Nat)} {k : Nat}
    (h : acontains m k = true) : k ∈ m.map Prod.fst := by
  rw [acontains_iff] at h
  obtain ⟨v, hv⟩ := h
  exact List.mem_map.mpr ⟨(k, v), alookup_mem hv, rfl⟩

/-- The pop list never outgrows the predecessor map. -/
theorem inv_P_length_le {g : VecGraph D} {f : D → Nat}
    {checkT : Nat → Option Bool} {seeds : List Nat} {st : DState}
    {P : List Nat} (core : InvCore g f checkT seeds st P) :
    P.length ≤ st.cameFrom.length := by
  have hsub : P ⊆ st.cameFrom.map Prod.fst := by
    intro u hu
    exact acontains_imp_key_mem
      ((core.keys_iff u).mp (core.popped_keyed u hu))
  calc P.length = P.toFinset.card := (List.toFinset_card_of_nodup core.ndP).symm
    _ ≤ (st.cameFrom.map Prod.fst).toFinset.card := by
        apply Finset.card_le_card
        intro x hx
        rw [List.mem_toFinset] at hx ⊢
        exact hsub hx
    _ ≤ (st.cameFrom.map Prod.fst).length := (st.cameFrom.map Prod.fst).toFinset_card_le
    _ = st.cameFrom.length := by simp

/-- The backward walk of `reconstruct_path`, under the loop invariant with
the single seed `s`, returns a walk from `s` to the queried handle whose
cost is bounded by the recorded best cost. -/
theorem reconGo_spec {g : VecGraph D} {f : D → Nat}
    {checkT : Nat → Option Bool} {s : Nat} {st : DState} {P : List Nat}
    (core : InvCore g f checkT [s] st P) :
    ∀ fuel u, acontains st.cameFrom u = true → rank P u + 2 ≤ fuel →
      ∀ acc, ∃ p, reconGo st.cameFrom s fuel u acc = some (p ++ acc) ∧
        IsWalk g p ∧ p.head? = some s ∧ p.getLast? = some u ∧
        ∀ c, alookup st.costSoFar u = some c → walkCost g f p ≤ c := by
  intro fuel
  induction fuel with
  | zero => intro u _ hr; omega
  | succ fl ih =>
    intro u hu hr acc
    by_cases hus : u = s
    · subst hus
      refine ⟨[u], by simp [reconGo], .single u, rfl, rfl, ?_⟩
      intro c hc
      have := (core.seed_keyed u (List.mem_singleton.mpr rfl)).1
      rw [this] at hc
      obtain rfl := Option.some.inj hc
      simp [walkCost]
    · have husd : u ∉ ([s] : List Nat) := by
        simp only [List.mem_singleton]
        exact hus
      obtain ⟨par, pc, kc, hpar, hparP, hparE, hpc, hkc, hble, hidx⟩ :=
        core.parent_spec u hu husd
      have hrankpar : rank P par < rank P u := by
        unfold rank
        rw [if_pos hparP]
        by_cases huP : u ∈ P
        · rw [if_pos huP]
          exact hidx huP
        · rw [if_neg huP]
          exact pIdx_lt_length hparP
      have hparc : acontains st.cameFrom par = true :=
        (core.keys_iff par).mp (core.popped_keyed par hparP)
      obtain ⟨p', hrec, hwalk', hhd', hlast', hcost'⟩ :=
        ih par hparc (by omega) (u :: acc)
      have hne' : p' ≠ [] := isWalk_ne_nil hwalk'
      refine ⟨p' ++ [u], ?_, isWalk_snoc hwalk' hlast' hparE, ?_,
        getLast?_snoc _ _, ?_⟩
      · rw [reconGo, if_neg hus, hpar]
        dsimp only
        rw [hrec, List.append_assoc]
        rfl
      · rw [head?_snoc hne']
        exact hhd'
      · intro c hc
        rw [hkc] at hc
        obtain rfl := Option.some.inj hc
        rw [walkCost_snoc g f hne']
        have := hcost' pc hpc
        omega

/-- The backward walk of `reconstruct_path_closure`, under the loop
invariant, returns a walk from some seed to the queried handle whose cost
is bounded by the recorded best cost. -/
theorem reconGoClosure_spec {g : VecGraph D} {f : D → Nat}
    {checkT : Nat → Option Bool} {seeds : List Nat} {st : DState}
    {P : List Nat} (core : InvCore g f checkT seeds st P) :
    ∀ fuel u, acontains st.cameFrom u = true → rank P u + 2 ≤ fuel →
      ∀ acc, ∃ p,
        reconGoClosure st.cameFrom seeds fuel u acc = some (p ++ acc) ∧
        IsWalk g p ∧ (∃ h, p.head? = some h ∧ h ∈ seeds) ∧
        p.getLast? = some u ∧
        ∀ c, alookup st.costSoFar u = some c → walkCost g f p ≤ c := by
  intro fuel
  induction fuel with
  | zero => intro u _ hr; omega
  | succ fl ih =>
    intro u hu hr acc
    by_cases hus : u ∈ seeds
    · have hcont : seeds.contains u = true := by
        rw [List.contains_eq_any_beq]
        simp only [List.any_eq_true]
        exact ⟨u, hus, by simp⟩
      have hcf := (core.seed_keyed u hus).2
      refine ⟨[u], ?_, .single u, ⟨u, rfl, hus⟩, rfl, ?_⟩
      · rw [reconGoClosure, if_pos hcont, hcf]
        rfl
      · intro c hc
        have := (core.seed_keyed u hus).1
        rw [this] at hc
        obtain rfl := Option.some.inj hc
        simp [walkCost]
    · have hcont : seeds.contains u = false := by
        rw [Bool.eq_false_iff]
        intro hc
        rw [List.contains_eq_any_beq] at hc
        simp only [List.any_eq_true] at hc
        obtain ⟨v, hv, hvu⟩ := hc
        have huv : u = v := by simpa using hvu
        exact hus (huv.symm ▸ hv)
      obtain ⟨par, pc, kc, hpar, hparP, hparE, hpc, hkc, hble, hidx⟩ :=
        core.parent_spec u hu hus
      have hrankpar : rank P par < rank P u := by
        unfold rank
        rw [if_pos hparP]
        by_cases huP : u ∈ P
        · rw [if_pos huP]
          exact hidx huP
        · rw [if_neg huP]
          exact pIdx_lt_length hparP
      have hparc : acontains st.cameFrom par = true :=
        (core.keys_iff par).mp (core.popped_keyed par hparP)
      obtain ⟨p', hrec, hwalk', hhd', hlast', hcost'⟩ :=
        ih par hparc (by omega) (u :: acc)
      have hne' : p' ≠ [] := isWalk_ne_nil hwalk'
      obtain ⟨hh, hhd'', hhmem⟩ := hhd'
      refine ⟨p' ++ [u], ?_, isWalk_snoc hwalk' hlast' hparE,
        ⟨hh, ?_, hhmem⟩, getLast?_snoc _ _, ?_⟩
      · rw [reconGoClosure, if_neg (by rw [hcont]; intro hc; cases hc),
          hpar]
        dsimp only
        rw [hrec, List.append_assoc]
        rfl
      · rw [head?_snoc hne']
        exact hhd''
      · intro c hc
        rw [hkc] at hc
        obtain rfl := Option.some.inj hc
        rw [walkCost_snoc g f hne']
        have := hcost' pc hpc
        omega

/-- On a map where the single start node is its own predecessor, the two
backward walks coincide. -/
theorem reconGo_eq_reconGoClosure {cf : List (Nat × Nat)} {s : Nat}
    (hs : alookup cf s = some s) :
    ∀ fuel u acc, reconGo cf s fuel u acc =
      reconGoClosure cf [s] fuel u acc := by
  intro fuel
  induction fuel with
  | zero => intro u acc; rfl
  | succ fl ih =>
    intro u acc
    by_cases hus : u = s
    · subst hus
      rw [reconGo, if_pos rfl, reconGoClosure,
        if_pos (by simp [List.contains_eq_any_beq]), hs]
      rfl
    · rw [reconGo, if_neg hus, reconGoClosure, if_neg ?hc]
      case hc =>
        simp only [List.contains_eq_any_beq, List.any_eq_true]
        rintro ⟨v, hv, hvu⟩
        rw [List.mem_singleton] at hv
        subst hv
        exact hus (by simpa using hvu)
      cases alookup cf u with
      | none => rfl
      | some par => exact ih par (u :: acc)

/-! ## Entry-point instantiations of the master lemma -/

/-- The search loop of `dijkstra`, run from its seeded entry state with
its own fuel, terminates in the invariant; a found node is the target and
carries a cost that lower-bounds every walk from the start. -/
theorem master_single {g : VecGraph D} {f : D → Nat} {s t : Nat}
    (hWF : WellFormed g) (hs : s < g.nodes.length) :
    ∃ st' P' found,
      loopGo g f (fun c => some (c = t : Bool)) (fuelFor g f [s])
        ⟨[(s, 0)], [(s, s)], [(s, 0)]⟩ = .done st'.cameFrom found ∧
      LoopInv g f (fun c => some (c = t : Bool)) [s] st' P' ∧
      (found = none → st'.frontier = []) ∧
      ∀ u, found = some u → u = t ∧
        ∃ c, alookup st'.costSoFar u = some c ∧
          acontains st'.cameFrom u = true ∧
          ∀ w, SeedWalk g [s] w u → c ≤ walkCost g f w := by
  have hnd : ([s] : List Nat).Nodup := by simp
  have hinit : LoopInv g f (fun c => some (c = t : Bool)) [s]
      ⟨[(s, 0)], [(s, s)], [(s, 0)]⟩ [] := by
    exact init_inv hnd
  have hmv : mval g f [s] ⟨[(s, 0)], [(s, s)], [(s, 0)]⟩ <
      fuelFor g f [s] := by
    exact init_mval_lt [s]
  obtain ⟨st', P', found, hrun, hinv, hnone, hsome⟩ :=
    loopGo_master hWF (by simpa using hs) (fun k _ => by simp)
      (fuelFor g f [s]) _ [] hinit hmv
  refine ⟨st', P', found, hrun, hinv, hnone, ?_⟩
  intro u hu
  obtain ⟨hchk, hrest⟩ := hsome u hu
  exact ⟨by simpa using hchk, hrest⟩

/-! ## Claim C1 (optimality of `dijkstra`) -/

/-- Claim C1: for every well-formed graph, valid start handle `s`, and
target `t` reachable from `s`, `dijkstra s t f` returns a path that starts
at `s`, ends at `t`, follows edges of the graph, and whose cumulative cost
(summing `f` over every node after the first) is minimal among all walks
from `s` to `t`. -/
theorem C1_dijkstra_returns_minimum_cost_path (g : VecGraph D) (s t : Nat)
    (f : D → Nat) (hWF : WellFormed g) (hs : s < g.nodes.length)
    (hreach : ∃ w, SeedWalk g [s] w t) :
    ∃ p, dijkstra g s t f = some p ∧ SeedWalk g [s] p t ∧
      ∀ w, SeedWalk g [s] w t → walkCost g f p ≤ walkCost g f w := by
  obtain ⟨st', P', found, hrun, hinv, hnone, hsome⟩ :=
    master_single (t := t) hWF hs
  unfold dijkstra
  dsimp only
  rw [hrun]
  cases found with
  | some u =>
    obtain ⟨rfl, c, hcsf, hcf, hmin⟩ := hsome u rfl
    dsimp only
    unfold reconstruct_path
    rw [if_pos hcf]
    have hrk : rank P' u + 2 ≤ st'.cameFrom.length + 2 := by
      have h1 := rank_le_length P' u
      have h2 := inv_P_length_le hinv.1
      omega
    obtain ⟨p, hrec, hwalk, hh, hl, hcost⟩ :=
      reconGo_spec hinv.1 (st'.cameFrom.length + 2) u hcf hrk []
    rw [List.append_nil] at hrec
    refine ⟨p, hrec, ⟨hwalk, ⟨s, hh, by simp⟩, hl⟩, ?_⟩
    intro w hw
    calc walkCost g f p ≤ c := hcost c hcsf
      _ ≤ walkCost g f w := hmin w hw
  | none =>
    exfalso
    have hfr : st'.frontier = [] := hnone rfl
    obtain ⟨w, hwalk, ⟨h, hh, hmem⟩, hlast⟩ := hreach
    obtain rfl : h = s := by simpa using hmem
    have hskeyed : acontains st'.costSoFar h = true := by
      rw [acontains_iff]
      exact ⟨0, (hinv.1.seed_keyed h (by simp)).1⟩
    have hsP : h ∈ P' := by
      rcases hinv.1.keyed_split h hskeyed with hp | hp
      · exact hp
      · rw [hfr] at hp
        simp [acontains, alookup] at hp
    rcases cover_from hinv w hwalk h hh hsP t hlast with
      ⟨k, p, hkp, _⟩ | ⟨htP, _⟩
    · rw [hfr] at hkp
      simp [alookup] at hkp
    · have := hinv.1.popped_nomatch t htP
      simp at this

/-- Closed instance of C1: on the two-node graph with one edge from 0 to
1 and the identity cost, the search from 0 to 1 yields the optimal
two-node path. -/
theorem C1_witness :
    ∃ p, dijkstra pg2 0 1 (fun d => d) = some p ∧
      SeedWalk pg2 [0] p 1 ∧
      ∀ w, SeedWalk pg2 [0] w 1 →
        walkCost pg2 (fun d => d) p ≤ walkCost pg2 (fun d => d) w :=
  C1_dijkstra_returns_minimum_cost_path pg2 0 1 (fun d => d)
    (by decide) (by decide)
    ⟨[0, 1], .cons 0 1 [] ⟨[1], rfl, by decide⟩ (.single 1),
      ⟨0, rfl, by decide⟩, rfl⟩

/-! ## Claim C6 (unreachable target yields the empty path) -/

/-- Claim C6: for every well-formed graph, valid handles `s` and `t` with
`t` not reachable from `s`, and every cost function, `dijkstra s t f`
returns the empty sequence (and in particular does not panic, i.e. is not
`none`). -/
theorem C6_dijkstra_unreachable_empty (g : VecGraph D) (s t : Nat)
    (f : D → Nat) (hWF : WellFormed g) (hs : s < g.nodes.length)
    (ht : t < g.nodes.length) (hnw : ¬∃ w, SeedWalk g [s] w t) :
    dijkstra g s t f = some [] := by
  obtain ⟨st', P', found, hrun, hinv, hnone, hsome⟩ :=
    master_single (t := t) hWF hs
  unfold dijkstra
  dsimp only
  rw [hrun]
  cases found with
  | some u =>
    exfalso
    obtain ⟨rfl, c, hcsf, hcf, hmin⟩ := hsome u rfl
    obtain ⟨w, hsw, _⟩ := hinv.1.realizing u c hcsf
    exact hnw ⟨w, hsw⟩
  | none =>
    dsimp only
    unfold reconstruct_path
    rw [if_neg ?hne]
    case hne =>
      intro hcf
      have hk := (hinv.1.keys_iff t).mpr hcf
      rw [acontains_iff] at hk
      obtain ⟨c, hc⟩ := hk
      obtain ⟨w, hsw, _⟩ := hinv.1.realizing t c hc
      exact hnw ⟨w, hsw⟩

/-- On the two-node edgeless graph there is no walk from 0 to 1. -/
theorem islands2_no_walk : ¬∃ w, SeedWalk islands2 [0] w 1 := by
  rintro ⟨w, hwalk, ⟨h, hh, hmem⟩, hlast⟩
  obtain rfl : h = 0 := by simpa using hmem
  cases hwalk with
  | single x =>
    obtain rfl : x = 0 := by simpa using hh
    simp at hlast
  | cons x y rest hxy hrest =>
    obtain rfl : x = 0 := by simpa using hh
    obtain ⟨l, hl, hy⟩ := hxy
    have h0 : islands2.get_neighbors 0 = some [] := rfl
    rw [h0] at hl
    obtain rfl : ([] : List Nat) = l := by simpa using hl
    cases hy

/-- Closed instance of C6: on the two-node edgeless graph the search from
0 to 1 yields the empty path. -/
theorem C6_witness : dijkstra islands2 0 1 (fun d => d) = some [] :=
  C6_dijkstra_unreachable_empty islands2 0 1 (fun d => d)
    (by decide) (by decide) (by decide) islands2_no_walk

/-! ## Claim C3, amended (invalid handles) -/

/-- Amended claim C3: an invalid *target* handle on a well-formed graph
makes `dijkstra` return the empty path without panicking, but an invalid
*start* handle (with `start != target`) panics inside `successors`
(modelled as `none`) instead of returning "no path found". -/
theorem C3_amended_invalid_target_empty_invalid_start_panics
    (g : VecGraph D) (s t : Nat) (f : D → Nat) :
    (WellFormed g → s < g.nodes.length → g.nodes.length ≤ t →
      dijkstra g s t f = some []) ∧
    (g.nodes.length ≤ s → s ≠ t → dijkstra g s t f = none) := by
  constructor
  · intro hWF hs ht
    obtain ⟨st', P', found, hrun, hinv, hnone, hsome⟩ :=
      master_single (t := t) hWF hs
    unfold dijkstra
    dsimp only
    rw [hrun]
    cases found with
    | some u =>
      exfalso
      obtain ⟨hut, c, hcsf, hcf, hmin⟩ := hsome u rfl
      have hk : acontains st'.costSoFar u = true := by
        rw [acontains_iff]
        exact ⟨c, hcsf⟩
      rcases hinv.1.keyed_valid u hk with hm | hm
      · rw [List.mem_singleton] at hm
        omega
      · omega
    | none =>
      dsimp only
      unfold reconstruct_path
      rw [if_neg ?hne]
      case hne =>
        intro hcf
        have hk := (hinv.1.keys_iff t).mpr hcf
        rcases hinv.1.keyed_valid t hk with hm | hm
        · rw [List.mem_singleton] at hm
          omega
        · omega
  · intro hs hst
    have hb : (s = t : Bool) = false := by simp [hst]
    have hn : g.get_neighbors s = none := get_neighbors_none_of_ge hs
    unfold dijkstra
    dsimp only
    obtain ⟨m, hm⟩ : ∃ m, fuelFor g f [s] = m + 1 := ⟨_, rfl⟩
    rw [hm]
    simp [loopGo, popMin, hb, hn]

/-- Closed instance of the amended C3 on the one-node graph: target 5
does not exist and the result is the empty path; start 3 does not exist
and the call panics. -/
theorem C3_witness :
    dijkstra oneNodeGraph 0 5 (fun d => d) = some [] ∧
    dijkstra oneNodeGraph 3 0 (fun d => d) = none :=
  ⟨(C3_amended_invalid_target_empty_invalid_start_panics
      oneNodeGraph 0 5 (fun d => d)).1 (by decide) (by decide) (by decide),
   (C3_amended_invalid_target_empty_invalid_start_panics
      oneNodeGraph 3 0 (fun d => d)).2 (by decide) (by decide)⟩

/-- The search loop of `dijkstra_search_with_closure`, run from its seeded
entry state with its own fuel, terminates in the invariant; a found node
has a payload satisfying the target predicate and carries a cost that
lower-bounds every walk from the frontier set. -/
theorem master_closure {g : VecGraph D} (f : D → Nat)
    (ffn tfn : D → Bool) (hWF : WellFormed g) :
    ∃ st' P' found,
      loopGo g f (fun c => (g.get_data c).map tfn)
        (fuelFor g f (g.find_nodes ffn))
        ⟨(g.find_nodes ffn).map (fun i => (i, 0)),
         (g.find_nodes ffn).map (fun i => (i, i)),
         (g.find_nodes ffn).map (fun i => (i, 0))⟩ =
          .done st'.cameFrom found ∧
      LoopInv g f (fun c => (g.get_data c).map tfn) (g.find_nodes ffn)
        st' P' ∧
      (found = none → st'.frontier = []) ∧
      ∀ u, found = some u →
        (∃ d, g.get_data u = some d ∧ tfn d = true) ∧
        ∃ c, alookup st'.costSoFar u = some c ∧
          acontains st'.cameFrom u = true ∧
          ∀ w, SeedWalk g (g.find_nodes ffn) w u → c ≤ walkCost g f w := by
  have hnd := find_nodes_nodup hWF.1 ffn
  have hseeds := find_nodes_valid hWF.1 ffn
  have hchk : ∀ k, k < g.nodes.length →
      (fun c => (g.get_data c).map tfn) k ≠ none := by
    intro k hk
    obtain ⟨d, hd⟩ := get_data_of_lt hk
    simp [hd]
  have hinit : LoopInv g f (fun c => (g.get_data c).map tfn)
      (g.find_nodes ffn)
      ⟨(g.find_nodes ffn).map (fun i => (i, 0)),
       (g.find_nodes ffn).map (fun i => (i, i)),
       (g.find_nodes ffn).map (fun i => (i, 0))⟩ [] := init_inv hnd
  have hmv := init_mval_lt (g := g) (f := f) (g.find_nodes ffn)
  obtain ⟨st', P', found, hrun, hinv, hnone, hsome⟩ :=
    loopGo_master hWF hseeds hchk (fuelFor g f (g.find_nodes ffn)) _ []
      hinit hmv
  refine ⟨st', P', found, hrun, hinv, hnone, ?_⟩
  intro u hu
  obtain ⟨hchku, hrest⟩ := hsome u hu
  refine ⟨?_, hrest⟩
  rw [Option.map_eq_some'] at hchku
  obtain ⟨d, hd, htd⟩ := hchku
  exact ⟨d, hd, htd⟩

/-! ## Claim C7 (closure search: empty frontier / no matching target) -/

/-- Claim C7: `dijkstra_search_with_closure` returns the empty sequence
(without panicking) when the frontier predicate selects no node, and —
on a well-formed graph — when no node whose payload satisfies the target
predicate is reachable by a walk from the frontier set, which is exactly
when no qualifying node is ever popped from the priority queue (every
popped node carries a recorded cost realized by a walk from the seeds). -/
theorem C7_closure_empty_frontier_or_no_target_empty (g : VecGraph D)
    (ffn tfn : D → Bool) (f : D → Nat) :
    (g.find_nodes ffn = [] →
      dijkstra_search_with_closure g ffn tfn f = some []) ∧
    (WellFormed g →
      (∀ u, (∃ w, SeedWalk g (g.find_nodes ffn) w u) →
        ∀ d, g.get_data u = some d → tfn d = false) →
      dijkstra_search_with_closure g ffn tfn f = some []) := by
  constructor
  · intro hfind
    unfold dijkstra_search_with_closure
    dsimp only
    rw [hfind]
    obtain ⟨m, hm⟩ : ∃ m, fuelFor g f [] = m + 1 := ⟨_, rfl⟩
    rw [hm]
    simp [loopGo, popMin, reconstruct_path_closure]
  · intro hWF hno
    obtain ⟨st', P', found, hrun, hinv, hnone, hsome⟩ :=
      master_closure f ffn tfn hWF
    unfold dijkstra_search_with_closure
    dsimp only
    rw [hrun]
    cases found with
    | some u =>
      exfalso
      obtain ⟨⟨d, hd, htd⟩, c, hcsf, _, _⟩ := hsome u rfl
      obtain ⟨w, hsw, _⟩ := hinv.1.realizing u c hcsf
      rw [hno u ⟨w, hsw⟩ d hd] at htd
      cases htd
    | none =>
      rfl

/-- On the two-node edgeless graph the only node reachable by a walk from
handle 0 is handle 0 itself. -/
theorem islands2_reachable_only_seed :
    ∀ u, (∃ w, SeedWalk islands2 [0] w u) → u = 0 := by
  rintro u ⟨w, hwalk, ⟨h, hh, hmem⟩, hlast⟩
  obtain rfl : h = 0 := by simpa using hmem
  cases hwalk with
  | single x =>
    obtain rfl : x = 0 := by simpa using hh
    simp at hlast
    omega
  | cons x y rest hxy hrest =>
    obtain rfl : x = 0 := by simpa using hh
    obtain ⟨l, hl, hy⟩ := hxy
    have h0 : islands2.get_neighbors 0 = some [] := rfl
    rw [h0] at hl
    obtain rfl : ([] : List Nat) = l := by simpa using hl
    cases hy

/-- Closed instance of C7: on the one-node graph an unsatisfiable
frontier predicate yields the empty path; on the two-node edgeless graph
a qualifying target (payload 9 at handle 1) exists but is unreachable
from the frontier node (payload 5 at handle 0), and the search still
yields the empty path. -/
theorem C7_witness :
    dijkstra_search_with_closure oneNodeGraph (fun _ => false)
      (fun _ => false) (fun d => d) = some [] ∧
    dijkstra_search_with_closure islands2 (fun d => (d = 5 : Bool))
      (fun d => (d = 9 : Bool)) (fun d => d) = some [] :=
  ⟨(C7_closure_empty_frontier_or_no_target_empty oneNodeGraph
      (fun _ => false) (fun _ => false) (fun d => d)).1 (by decide),
   (C7_closure_empty_frontier_or_no_target_empty islands2
      (fun d => (d = 5 : Bool)) (fun d => (d = 9 : Bool)) (fun d => d)).2
      (by decide)
      (fun u hr d hd => by
        obtain rfl : u = 0 := islands2_reachable_only_seed u hr
        obtain rfl : (5 : Nat) = d := by
          simpa [islands2, VecGraph.get_data] using hd
        rfl)⟩

/-! ## Claim C8 (closure search refines single-pair search) -/

/-- After relaxation, every frontier key was already in the frontier or is
one of the relaxed neighbors. -/
theorem relaxAll_frontier_keys {g : VecGraph D} {f : D → Nat}
    {current : Nat} :
    ∀ (ns : List Nat) (st st' : DState),
      relaxAll g f current ns st = some st' →
      ∀ k, acontains st'.frontier k = true →
        acontains st.frontier k = true ∨ k ∈ ns := by
  intro ns
  induction ns with
  | nil =>
    intro st st' h k hk
    obtain rfl : st = st' := by simpa [relaxAll] using h
    exact Or.inl hk
  | cons next rest ih =>
    intro st st' h k hk
    rw [relaxAll] at h
    match hone : relaxOne g f current st next with
    | none => rw [hone] at h; cases h
    | some st₁ =>
      rw [hone] at h
      dsimp only at h
      rcases ih st₁ st' h k hk with h1 | h1
      · unfold relaxOne at hone
        match hd : g.get_data next, hc : alookup st.costSoFar current with
        | some data, some curCost =>
          rw [hd, hc] at hone
          dsimp only at hone
          match ho : alookup st.costSoFar next with
          | none =>
            rw [ho] at hone
            dsimp only at hone
            obtain rfl := Option.some.inj hone
            rcases (acontains_qpush_iff _ _ _ _).mp h1 with h2 | h2
            · exact Or.inl h2
            · exact Or.inr (h2 ▸ List.mem_cons_self _ _)
          | some oldCost =>
            rw [ho] at hone
            dsimp only at hone
            by_cases hlt : f data + curCost < oldCost
            · rw [if_pos hlt] at hone
              obtain rfl := Option.some.inj hone
              rcases (acontains_qpush_iff _ _ _ _).mp h1 with h2 | h2
              · exact Or.inl h2
              · exact Or.inr (h2 ▸ List.mem_cons_self _ _)
            · rw [if_neg hlt] at hone
              obtain rfl := Option.some.inj hone
              exact Or.inl h1
        | some data, none =>
          rw [hd, hc] at hone
          dsimp only at hone
          cases hone
        | none, some c =>
          rw [hd] at hone
          dsimp only at hone
          cases hone
        | none, none =>
          rw [hd] at hone
          dsimp only at hone
          cases hone
      · exact Or.inr (List.mem_cons_of_mem _ h1)

/-- The search loop only consults the target test on valid handles, so two
tests that agree on valid handles drive it identically (frontier keys
staying valid throughout on a well-formed graph). -/
theorem loopGo_congr {g : VecGraph D} {f : D → Nat}
    {checkA checkB : Nat → Option Bool} (hWF : WellFormed g)
    (hAB : ∀ k, k < g.nodes.length → checkA k = checkB k) :
    ∀ (fuel : Nat) (st : DState),
      (∀ k, acontains st.frontier k = true → k < g.nodes.length) →
      loopGo g f checkA fuel st = loopGo g f checkB fuel st := by
  intro fuel
  induction fuel with
  | zero => intro st _; rfl
  | succ fl ih =>
    intro st hval
    rw [loopGo, loopGo]
    match hpop : popMin st.frontier with
    | none => rfl
    | some ((current, pu), rest) =>
      obtain ⟨l₁, l₂, hq, hrest⟩ := popMin_split hpop
      have hcv : current < g.nodes.length := by
        apply hval
        apply acontains_of_mem
        rw [hq]
        exact List.mem_append_right _ (List.mem_cons_self _ _)
      dsimp only
      rw [hAB current hcv]
      match checkB current with
      | none => rfl
      | some true => rfl
      | some false =>
        dsimp only
        match hns : g.get_neighbors current with
        | none => rfl
        | some ns =>
          dsimp only
          have hnsval : ∀ z ∈ ns, z < g.nodes.length := by
            obtain ⟨l, hl, hlv⟩ := wf_get_neighbors hWF hcv
            rw [hns] at hl
            obtain rfl := Option.some.inj hl
            exact hlv
          match hrel : relaxAll g f current ns { st with frontier := rest }
              with
          | none => rfl
          | some st' =>
            dsimp only
            apply ih
            intro k hk
            rcases relaxAll_frontier_keys ns _ st' hrel k hk with h1 | h1
            · apply hval
              have h2 : acontains rest k = true := h1
              rw [acontains_iff] at h2
              obtain ⟨v, hv⟩ := h2
              have hmem := alookup_mem hv
              rw [hrest] at hmem
              apply acontains_of_mem (v := v)
              rw [hq]
              rcases List.mem_append.mp hmem with hm | hm
              · exact List.mem_append_left _ hm
              · exact List.mem_append_right _ (List.mem_cons_of_mem _ hm)
            · exact hnsval k h1

/-- Claim C8: on a well-formed graph, when the frontier predicate selects
exactly the node `s` and the target predicate holds exactly at the node
`t`, the closure search returns the same result as the single-pair
search between `s` and `t`. -/
theorem C8_closure_singleton_equals_single_pair (g : VecGraph D)
    (ffn tfn : D → Bool) (f : D → Nat) (s t : Nat)
    (hWF : WellFormed g) (hfind : g.find_nodes ffn = [s])
    (htgt : ∀ k d, g.get_data k = some d → (tfn d = true ↔ k = t)) :
    dijkstra_search_with_closure g ffn tfn f = dijkstra g s t f := by
  have hs : s < g.nodes.length := by
    apply find_nodes_valid hWF.1 ffn s
    rw [hfind]
    exact List.mem_singleton.mpr rfl
  have hAB : ∀ k, k < g.nodes.length →
      (fun c => some (c = t : Bool)) k =
        (fun c => (g.get_data c).map tfn) k := by
    intro k hk
    obtain ⟨d, hd⟩ := get_data_of_lt hk
    have hiff := htgt k d hd
    dsimp only
    rw [hd, Option.map_some']
    by_cases hkt : k = t
    · simp [hkt, hiff.mpr hkt]
    · have : tfn d = false := by
        rw [Bool.eq_false_iff]
        intro hc
        exact hkt (hiff.mp hc)
      simp [hkt, this]
  obtain ⟨st', P', found, hrun, hinv, hnone, hsome⟩ :=
    master_single (t := t) hWF hs
  have hcongr : loopGo g f (fun c => (g.get_data c).map tfn)
      (fuelFor g f [s]) ⟨[(s, 0)], [(s, s)], [(s, 0)]⟩ =
      .done st'.cameFrom found := by
    rw [← loopGo_congr hWF hAB (fuelFor g f [s]) _ ?hv, hrun]
    case hv =>
      intro k hk
      by_cases hks : s = k
      · exact hks ▸ hs
      · have h2 : acontains [(s, 0)] k = true := hk
        rw [acontains, alookup, if_neg hks] at h2
        simp [alookup] at h2
  unfold dijkstra_search_with_closure dijkstra
  dsimp only
  rw [hfind]
  simp only [List.map_cons, List.map_nil]
  rw [hcongr, hrun]
  cases found with
  | some u =>
    obtain ⟨rfl, c, hcsf, hcf, hmin⟩ := hsome u rfl
    dsimp only
    unfold reconstruct_path reconstruct_path_closure
    rw [if_pos hcf]
    exact (reconGo_eq_reconGoClosure
      ((hinv.1.seed_keyed s (by simp)).2) _ u []).symm
  | none =>
    dsimp only
    unfold reconstruct_path reconstruct_path_closure
    rw [if_neg ?hne]
    case hne =>
      intro hcf
      have hk := (hinv.1.keys_iff t).mpr hcf
      have hfr := hinv.1.match_in_fr t hk (by simp)
      rw [hnone rfl] at hfr
      simp [acontains, alookup] at hfr

/-- On the two-node edge graph the target predicate "payload 9" holds
exactly at handle 1. -/
theorem pg2_target_spec :
    ∀ k d, pg2.get_data k = some d → ((d = 9 : Bool) = true ↔ k = 1) := by
  intro k d hk
  match k with
  | 0 =>
    obtain rfl : (5 : Nat) = d := by
      simpa [pg2, VecGraph.get_data] using hk
    simp
  | 1 =>
    obtain rfl : (9 : Nat) = d := by
      simpa [pg2, VecGraph.get_data] using hk
    simp
  | (n + 2) =>
    simp [pg2, VecGraph.get_data] at hk

/-- Closed instance of C8 on the two-node edge graph: the closure search
with singleton frontier payload 5 and singleton target payload 9 equals
the single-pair search from 0 to 1. -/
theorem C8_witness :
    dijkstra_search_with_closure pg2 (fun d => (d = 5 : Bool))
      (fun d => (d = 9 : Bool)) (fun d => d) =
      dijkstra pg2 0 1 (fun d => d) :=
  C8_closure_singleton_equals_single_pair pg2 (fun d => (d = 5 : Bool))
    (fun d => (d = 9 : Bool)) (fun d => d) 0 1 (by decide) (by decide)
    pg2_target_spec

end AocGraph
